import Mathlib

/-!
Shallow embedding of the Pluvic/Cryptool group-theory core
(`src/cryptool/group.py`, `src/cryptool/utils.py`) together with proofs
of the testable properties stated for it.

Modelling conventions:
* Python arbitrary-precision integers become `Nat` (scalar groups, all
  values reachable there are non-negative) or `Int` (elliptic-curve
  coordinates, where intermediate differences may be negative); `x % n`
  on non-negative operands is `Nat.mod`, and on `Int` it is `Int.emod`,
  which agrees with Python's `%` for a positive modulus.
* `pow(b, e, m)` is `b ^ e % m`; `pow(b, -1, m)` (the modular inverse,
  raising `ValueError` when none exists) is modelled by a bounded search
  returning the canonical inverse in `[0, m)` and an arbitrary default
  when none exists — every theorem below only takes it where the source
  would have succeeded.
* Unbounded `while` loops are modelled with an explicit fuel argument;
  `none` means the loop performed more iterations than the given fuel,
  so `∀ fuel, ... = none` states that the source loop never terminates.
* `random.randint(1, N-1)` (ECDSA's ephemeral scalar) is modelled by
  passing the drawn value as an explicit argument.
* `int(log(k, 2))` is modelled by the exact base-2 logarithm `intLog2`
  (a fuelled, kernel-computable version of `Nat.log 2`).
-/

namespace Cryptool

/-! ### utils.py -/

/-- Embedding of `utils.gcd`: `while b: a, b = b, a % b; return a`. -/
def gcdU (a b : Nat) : Nat :=
  if h : b = 0 then a else gcdU b (a % b)
termination_by b
decreasing_by exact Nat.mod_lt _ (Nat.pos_of_ne_zero h)

/-- Loop of `utils.bezout` on non-negative inputs (the final sign fixup in
the source only triggers for negative inputs, which never occur in the
uses modelled here). Returns `(gcd, u, v)` with `a*u + b*v = gcd`. -/
def bezoutLoop (a b : Nat) (u0 u1 v0 v1 : Int) : Nat × Int × Int :=
  if h : b = 0 then (a, u0, v0)
  else bezoutLoop b (a % b) u1 (u0 - (a / b : Nat) * u1) v1 (v0 - (a / b : Nat) * v1)
termination_by b
decreasing_by exact Nat.mod_lt _ (Nat.pos_of_ne_zero h)

/-- Embedding of `utils.bezout` (non-negative inputs). -/
def bezout (a b : Nat) : Nat × Int × Int :=
  bezoutLoop a b 1 0 0 1

/-- Embedding of `utils.inverse`.  The source computes `gcd(x, n)`, and when
it is not 1 merely *prints* an error message; it then unconditionally
returns `be1 % n` where `be1` is the first Bézout coefficient.  The print
has no effect on the returned value, so it is not part of the model. -/
def inverseU (x n : Nat) : Nat :=
  (((bezout x n).2.1) % (n : Int)).toNat

/-- Embedding of `utils._primalityList`: all pairs `i < j` have gcd 1. -/
def primalityList : List Nat → Bool
  | [] => true
  | a :: rest => (rest.all fun b => gcdU a b = 1) && primalityList rest

/-- Embedding of `utils.chineseRemainder`.  The source returns `None`
(modelled as `none`) when the list lengths differ or the moduli are not
pairwise coprime, otherwise `x % N` for the usual CRT combination. -/
def chineseRemainder (listRemainders listModulos : List Nat) : Option Nat :=
  if listRemainders.length ≠ listModulos.length then none
  else if ¬ primalityList listModulos then none
  else
    let N := listModulos.foldl (· * ·) 1
    let x := (listRemainders.zip listModulos).foldl
      (fun x ij => x + ij.1 * (N / ij.2) * inverseU (N / ij.2) ij.2) 0
    some (x % N)

/-! ### group.py: the abstract `Group` class -/

/-- Embedding of the abstract class `Group`: defining parameter `p`,
stored order `N`, identity `e` and the group operation `loi`.  The
carrier is a type parameter; the methods that syntactically require
integer elements (`DLnaive`, with its `% self.p`) are stated for
`Group Nat`. -/
structure Group (α : Type) where
  p : Nat
  N : Nat
  e : α
  loi : α → α → α

/-- Mathematical reference definition: the `k`-fold product of `g` under
`loi` starting from `e` (so `iterLoi loi e g N = e` says the order of `g`
divides `N`). -/
def iterLoi (loi : α → α → α) (e g : α) : Nat → α
  | 0 => e
  | k + 1 => loi (iterLoi loi e g k) g

/-- Fuelled exact base-2 logarithm; `intLog2 k` models Python's
`int(log(k, 2))` for `k ≥ 1`. -/
def log2fuel : Nat → Nat → Nat
  | 0, _ => 0
  | fuel + 1, n => if n ≤ 1 then 0 else log2fuel fuel (n / 2) + 1

/-- Exact base-2 logarithm (kernel-computable `Nat.log 2`). -/
def intLog2 (n : Nat) : Nat := log2fuel n n

/-- The body of the `for i in range(t, -1, -1)` double-and-add loop shared
by `Group.exp` and `ECConZp.exp`: squares the accumulator and multiplies
in `g` whenever bit `i` of `k` is set, for `i = t, t-1, ..., 0`. -/
def dblAdd (loi : α → α → α) (g : α) (k : Nat) : Nat → α → α
  | 0, h => if (k >>> 0) &&& 1 = 1 then loi (loi h h) g else loi h h
  | i + 1, h =>
    dblAdd loi g k i (if (k >>> (i + 1)) &&& 1 = 1 then loi (loi h h) g else loi h h)

/-- Embedding of `Group.exp` for a non-negative exponent: `k == 0` returns
`e`, otherwise the double-and-add loop runs from bit `t = int(log(k,2)) + 1`
down to bit 0.  (The source additionally aliases `k == -1` to `N - 1` and
raises a domain error for any other negative `k`; no claim involves a
negative exponent, so the model takes `k : Nat`.) -/
def Group.exp (G : Group α) (g : α) (k : Nat) : α :=
  if k = 0 then G.e
  else dblAdd G.loi g k (intLog2 k + 1) G.e

/-- Loop of `Group.DLnaive`: `while x != h: x = loi(x, g) % p; k += 1`.
`fuel` bounds the number of iterations still allowed; `none` means the
source loop would still be running after that many iterations. -/
def Group.DLnaiveF (G : Group Nat) (g h : Nat) : Nat → Nat → Nat → Option Nat
  | x, k, 0 => if x = h then some k else none
  | x, k, fuel + 1 =>
    if x = h then some k else G.DLnaiveF g h (G.loi x g % G.p) (k + 1) fuel

/-- Embedding of `Group.DLnaive` (fuelled). -/
def Group.DLnaive (G : Group Nat) (g h fuel : Nat) : Option Nat :=
  G.DLnaiveF g h G.e 0 fuel

/-- Ceiling square root: the least `m` with `N ≤ m * m`; models
`math.ceil(math.sqrt(N))`. -/
def ceilSqrt (N : Nat) : Nat :=
  (((List.range (N + 1)).find? fun m => N ≤ m * m).getD N)

/-- The baby-step table of `Group.babyStepGiantStep`:
`[exp(g, 0), exp(g, w), ..., exp(g, w*w)]` (indices `0..w`). -/
def Group.tabI (G : Group Nat) (g w : Nat) : List Nat :=
  (List.range (w + 1)).map fun i => G.exp g (i * w)

/-- Giant-step loop of `Group.babyStepGiantStep`:
`while loi(h, exp(g, N - j)) not in tabI: j += 1`, then return
`w * tabI.index(x) + j`.  `fuel` bounds the number of extra giant steps. -/
def Group.bsgsF (G : Group Nat) (g h : Nat) (tab : List Nat) (w : Nat) :
    Nat → Nat → Option Nat
  | j, 0 =>
    if G.loi h (G.exp g (G.N - j)) ∈ tab then
      some (w * tab.indexOf (G.loi h (G.exp g (G.N - j))) + j)
    else none
  | j, fuel + 1 =>
    if G.loi h (G.exp g (G.N - j)) ∈ tab then
      some (w * tab.indexOf (G.loi h (G.exp g (G.N - j))) + j)
    else G.bsgsF g h tab w (j + 1) fuel

/-- Embedding of `Group.babyStepGiantStep` (fuelled giant-step loop). -/
def Group.babyStepGiantStep (G : Group Nat) (g h fuel : Nat) : Option Nat :=
  G.bsgsF g h (G.tabI g (ceilSqrt G.N)) (ceilSqrt G.N) 0 fuel

/-- Embedding of `Group.calculDL`: dispatch on `N < t` (source default
`t = 1000`). -/
def Group.calculDL (G : Group Nat) (g h t fuel : Nat) : Option Nat :=
  if G.N < t then G.DLnaive g h fuel else G.babyStepGiantStep g h fuel

/-! ### group.py: concrete scalar groups -/

/-- Embedding of `ZpAdd`. -/
def zpAdd (p : Nat) : Group Nat :=
  { p := p, N := p, e := 0, loi := fun g1 g2 => (g1 + g2) % p }

/-- Embedding of `ZpMult`. -/
def zpMult (p : Nat) : Group Nat :=
  { p := p, N := p - 1, e := 1, loi := fun g1 g2 => g1 * g2 % p }

/-- Embedding of `ZpMulWithOrder`: `ZpMult` with the order overridden. -/
def zpMulWithOrder (p N : Nat) : Group Nat :=
  { zpMult p with N := N }

/-- Canonical modular inverse in `[0, p)`; models Python's `pow(x, -1, p)`
(i.e. `ZpMult.inv`), which raises when no inverse exists — the default 0
is only a placeholder for that error case. -/
def invMod (x p : Nat) : Nat :=
  (((List.range p).find? fun y => x * y % p = 1).getD 0)

/-- Embedding of Python's three-argument `pow(b, e, m)`. -/
def powMod (b e m : Nat) : Nat := b ^ e % m

/-- The dictionary built by `ZpMulWithOrder.ShanksAlgorithm`:
`table[exp(g, j)] = j` for `j in range(m)`.  Later insertions overwrite
earlier ones, which `tableFind` reproduces by searching the reversed
association list. -/
def shanksTable (G : Group Nat) (g m : Nat) : List (Nat × Nat) :=
  (List.range m).map fun j => (G.exp g j, j)

/-- Lookup in the model of a Python dict built by ascending insertion:
the *last* binding for a key wins. -/
def tableFind (tab : List (Nat × Nat)) (x : Nat) : Option Nat :=
  (tab.reverse.find? fun pr => pr.1 = x).map Prod.snd

/-- Search loop of `ZpMulWithOrder.ShanksAlgorithm`: `for i in range(m)`,
return `i * m + table[current]` on a hit, else multiply by `g_inv_m`;
falls off the loop with `None` after `m` misses. -/
def shanksLoop (G : Group Nat) (gInvM : Nat) (tab : List (Nat × Nat)) (m : Nat) :
    Nat → Nat → Option Nat
  | _, 0 => none
  | current, steps + 1 =>
    match tableFind tab current with
    | some j => some ((m - (steps + 1)) * m + j)
    | none => shanksLoop G gInvM tab m (G.loi current gInvM) steps

/-- Embedding of `ZpMulWithOrder.ShanksAlgorithm`. -/
def Group.ShanksAlgorithm (G : Group Nat) (g h : Nat) : Option Nat :=
  let m := ceilSqrt G.N
  shanksLoop G (G.exp g (G.N - m)) (shanksTable G g m) m h m

/-- Loop of `ZpMulWithOrder.DLinGroupofPrimePowerOrder` (`for j in range(n)`),
with `r` the number of remaining iterations (`j = n - r`) and `i` the digit
accumulator.  A `None` from the inner Shanks call crashes the source
(`None * int`); the model propagates it as `none`. -/
def DLinLoop (G : Group Nat) (g h q n y : Nat) : Nat → Nat → Option Nat
  | 0, i => some i
  | r + 1, i =>
    let j := n - (r + 1)
    let ej := powMod q (n - j - 1) G.N
    let hj := powMod (h * invMod (powMod g i G.p) G.p) ej G.p
    match (zpMulWithOrder G.p q).ShanksAlgorithm y hj with
    | none => none
    | some dj => DLinLoop G g h q n y r (i + dj * powMod q j G.N)

/-- Embedding of `ZpMulWithOrder.DLinGroupofPrimePowerOrder` on the group
`G` (whose stored order is the prime power `q^n`). -/
def Group.DLinGroupofPrimePowerOrder (G : Group Nat) (g h q n : Nat) : Option Nat :=
  DLinLoop G g h q n (powMod g (powMod q (n - 1) G.N) G.p) n 0

/-- Model of `sympy.ntheory.factorint` (an external collaborator): the
prime-power factorisation of `N` as an ascending list of
`(prime, multiplicity)` pairs. -/
def factorintM (N : Nat) : List (Nat × Nat) :=
  N.primeFactorsList.dedup.map fun q => (q, N.primeFactorsList.count q)

/-- Embedding of `ZpMulWithOrder.pohligHellman`: solve the discrete log in
each prime-power subgroup and recombine by `chineseRemainder`.  `none`
models the crashes/`None` returns the source would hit when a subproblem
fails; under the theorems' hypotheses it never occurs. -/
def Group.pohligHellman (G : Group Nat) (g h : Nat) : Option Nat :=
  let factors := factorintM G.N
  match factors.mapM (fun pe =>
      (zpMulWithOrder G.p (pe.1 ^ pe.2)).DLinGroupofPrimePowerOrder
        (powMod g (G.N / pe.1 ^ pe.2) G.p) (powMod h (G.N / pe.1 ^ pe.2) G.p)
        pe.1 pe.2) with
  | none => none
  | some ijs =>
    match chineseRemainder ijs (factors.map fun pe => pe.1 ^ pe.2) with
    | none => none
    | some x => some (x % G.N)

/-! ### group.py: the elliptic-curve group `ECConZp` -/

/-- Canonical modular inverse of an integer in `[0, p)`; models the value
Python's `pow(a, -1, p)` returns on a possibly negative base *when the
inverse exists*.  The default 0 never models a return value of the source:
where the base may be non-invertible (Python raises `ValueError`), the
fallible `invModIntOpt` below is used instead, and every theorem taking
`invModInt` does so under hypotheses making the base invertible. -/
def invModInt (a : Int) (p : Nat) : Int :=
  ((((List.range p).find? fun (y : Nat) => a * (y : Int) % (p : Int) = 1).getD 0 : Nat) : Int)

/-- Fallible model of Python's `pow(a, -1, p)` on a possibly negative base:
`none` is the `ValueError` the source raises when the base is not
invertible modulo `p`. -/
def invModIntOpt (a : Int) (p : Nat) : Option Int :=
  ((List.range p).find? fun (y : Nat) => a * (y : Int) % (p : Int) = 1).map
    fun (y : Nat) => (y : Int)

/-- Embedding of the `ECConZp` state: coefficients `A, B`, base point `G`,
field modulus `p`, order `N`, identity sentinel `e` (a caller-chosen list
distinct from every valid point; `main.py` never fixes one). -/
structure ECConZp where
  A : Int
  B : Int
  G : List Int
  p : Nat
  N : Nat
  e : List Int

/-- Embedding of `ECConZp.loi` (point addition).  List indexing `P[0]`,
`P[1]` is modelled with `getD` (total; all reachable points are pairs). -/
def ECConZp.loi (E : ECConZp) (P Q : List Int) : List Int :=
  if P = E.e then Q
  else if Q = E.e then P
  else if P.getD 0 0 = Q.getD 0 0 then
    if P.getD 1 0 = (-(Q.getD 1 0)) % (E.p : Int) then E.e
    else
      let x := P.getD 0 0
      let y := P.getD 1 0
      let lam := (3 * x ^ 2 + E.A) * invModInt (2 * y) E.p % (E.p : Int)
      let x3 := (lam ^ 2 - 2 * x) % (E.p : Int)
      let y3 := (lam * (x - x3) - y) % (E.p : Int)
      [x3, y3]
  else
    let x1 := P.getD 0 0
    let y1 := P.getD 1 0
    let x2 := Q.getD 0 0
    let y2 := Q.getD 1 0
    let lam := (y2 - y1) * invModInt (x2 - x1) E.p % (E.p : Int)
    let x3 := (lam ^ 2 - x1 - x2) % (E.p : Int)
    let y3 := (lam * (x1 - x3) - y1) % (E.p : Int)
    [x3, y3]

/-- Fallible embedding of `ECConZp.loi`: branch for branch the same as
`loi`, except that the two `pow(·, -1, p)` calls are modelled by
`invModIntOpt`, so `none` is the `ValueError` the source raises when a
tangent or chord denominator is not invertible modulo `p`. -/
def ECConZp.loiOpt (E : ECConZp) (P Q : List Int) : Option (List Int) :=
  if P = E.e then some Q
  else if Q = E.e then some P
  else if P.getD 0 0 = Q.getD 0 0 then
    if P.getD 1 0 = (-(Q.getD 1 0)) % (E.p : Int) then some E.e
    else
      match invModIntOpt (2 * P.getD 1 0) E.p with
      | none => none
      | some w =>
        let x := P.getD 0 0
        let y := P.getD 1 0
        let lam := (3 * x ^ 2 + E.A) * w % (E.p : Int)
        let x3 := (lam ^ 2 - 2 * x) % (E.p : Int)
        let y3 := (lam * (x - x3) - y) % (E.p : Int)
        some [x3, y3]
  else
    match invModIntOpt (Q.getD 0 0 - P.getD 0 0) E.p with
    | none => none
    | some w =>
      let x1 := P.getD 0 0
      let y1 := P.getD 1 0
      let x2 := Q.getD 0 0
      let y2 := Q.getD 1 0
      let lam := (y2 - y1) * w % (E.p : Int)
      let x3 := (lam ^ 2 - x1 - x2) % (E.p : Int)
      let y3 := (lam * (x1 - x3) - y1) % (E.p : Int)
      some [x3, y3]

/-- Embedding of `ECConZp.exp` (same double-and-add loop as `Group.exp`,
specialised to point addition). -/
def ECConZp.exp (E : ECConZp) (P : List Int) (k : Nat) : List Int :=
  if k = 0 then E.e
  else dblAdd E.loi P k (intLog2 k + 1) E.e

/-- Embedding of `ECConZp.verify`: the sentinel, or
`pow(P[1], 2, p) == (pow(P[0], 3, p) + A*P[0] + B) % p`. -/
def ECConZp.verify (E : ECConZp) (P : List Int) : Bool :=
  if P = E.e then true
  else (P.getD 1 0) ^ 2 % (E.p : Int) =
    ((P.getD 0 0) ^ 3 % (E.p : Int) + E.A * P.getD 0 0 + E.B) % (E.p : Int)

/-- Embedding of `ECConZp.ECDSA_sign`; `k` is the value drawn by
`randint(1, self.N - 1)`.  Note the source performs no `t == 0` check. -/
def ECConZp.ECDSA_sign (E : ECConZp) (m d : Nat) (k : Nat) : Int × Int :=
  let K := E.exp E.G k
  let t := K.getD 0 0 % (E.N : Int)
  let s := ((m : Int) + d * t) * invModInt (k : Int) E.N % (E.N : Int)
  (t, s)

/-- Embedding of `ECConZp.ECDSA_verif`. -/
def ECConZp.ECDSA_verif (E : ECConZp) (Q : List Int) (m : Nat) (sign : Int × Int) :
    Bool :=
  let t := sign.1
  let s := sign.2
  if ¬ (t > 0 ∧ t ≤ (E.N : Int) - 1) ∨ ¬ (s > 0 ∧ s ≤ (E.N : Int) - 1) then false
  else
    let sinv := invModInt s E.N
    let R1 := E.exp E.G (m * sinv.toNat)
    let R2 := E.exp Q (sign.1.toNat * sinv.toNat)
    let R := E.loi R1 R2
    if R.getD 0 0 % (E.N : Int) = t then true else false

/-- Convenience wrapper: the iterated `loi`-product of `g` in the group `G`. -/
def Group.iter (G : Group α) (g : α) (k : Nat) : α :=
  iterLoi G.loi G.e g k

/-! ### Correctness of the shared double-and-add loop -/

theorem log2fuel_eq_log {fuel : Nat} : ∀ {n : Nat}, n ≤ fuel → log2fuel fuel n = Nat.log 2 n := by
  induction fuel with
  | zero =>
    intro n hn
    interval_cases n
    simp [log2fuel]
  | succ fuel ih =>
    intro n hn
    rw [log2fuel]
    by_cases h1 : n ≤ 1
    · rw [if_pos h1]
      interval_cases n <;> simp
    · rw [if_neg h1]
      have hrec : Nat.log 2 n = Nat.log 2 (n / 2) + 1 :=
        Nat.log_of_one_lt_of_le (by omega) (by omega)
      rw [ih (by omega : n / 2 ≤ fuel), hrec]

theorem intLog2_eq_log (n : Nat) : intLog2 n = Nat.log 2 n :=
  log2fuel_eq_log (Nat.le_refl n)

theorem dblAdd_spec {α : Type} {loi : α → α → α} {e g : α} (k : Nat)
    (Hadd : ∀ a b, loi (iterLoi loi e g a) (iterLoi loi e g b) = iterLoi loi e g (a + b)) :
    ∀ i m, dblAdd loi g k i (iterLoi loi e g m) =
      iterLoi loi e g (m * 2 ^ (i + 1) + k % 2 ^ (i + 1)) := by
  intro i
  induction i with
  | zero =>
    intro m
    have hsq : loi (iterLoi loi e g m) (iterLoi loi e g m) = iterLoi loi e g (m + m) := Hadd m m
    rw [dblAdd, Nat.shiftRight_zero, Nat.and_one_is_mod, hsq]
    rcases Nat.mod_two_eq_zero_or_one k with h | h
    · rw [h, if_neg (by omega)]
      have : m * 2 ^ (0 + 1) + k % 2 ^ (0 + 1) = m + m := by
        have : k % 2 ^ (0 + 1) = 0 := by simpa using h
        omega
      rw [this]
    · rw [h, if_pos rfl]
      have h2 : loi (iterLoi loi e g (m + m)) g = iterLoi loi e g (m + m + 1) := rfl
      rw [h2]
      have : m * 2 ^ (0 + 1) + k % 2 ^ (0 + 1) = m + m + 1 := by
        have : k % 2 ^ (0 + 1) = 1 := by simpa using h
        omega
      rw [this]
  | succ i ih =>
    intro m
    have hsq : loi (iterLoi loi e g m) (iterLoi loi e g m) = iterLoi loi e g (m + m) := Hadd m m
    have hbit : (k >>> (i + 1)) &&& 1 = k / 2 ^ (i + 1) % 2 := by
      rw [Nat.shiftRight_eq_div_pow, Nat.and_one_is_mod]
    have hm : k % 2 ^ (i + 1 + 1) = k % 2 ^ (i + 1) + 2 ^ (i + 1) * (k / 2 ^ (i + 1) % 2) :=
      Nat.mod_pow_succ
    have h2 : (2 : Nat) ^ (i + 1 + 1) = 2 ^ (i + 1) * 2 := by ring
    rw [dblAdd, hbit, hsq]
    rcases Nat.mod_two_eq_zero_or_one (k / 2 ^ (i + 1)) with h | h
    · rw [h, if_neg (by omega), ih (m + m)]
      congr 1
      rw [hm, h, h2]
      ring
    · rw [h, if_pos rfl]
      have hstep : loi (iterLoi loi e g (m + m)) g = iterLoi loi e g (m + m + 1) := rfl
      rw [hstep, ih (m + m + 1)]
      congr 1
      rw [hm, h, h2]
      ring

/-- The double-and-add exponentiation computes the iterated product, for
any operation satisfying the power-law on powers of `g`. -/
theorem Group.exp_eq_iter {α : Type} (G : Group α) (g : α)
    (Hadd : ∀ a b, G.loi (G.iter g a) (G.iter g b) = G.iter g (a + b)) (k : Nat) :
    G.exp g k = G.iter g k := by
  by_cases hk : k = 0
  · subst hk; rfl
  · rw [Group.exp, if_neg hk]
    have h0 : G.e = G.iter g 0 := rfl
    rw [h0]
    have hadd : ∀ a b, G.loi (iterLoi G.loi G.e g a) (iterLoi G.loi G.e g b) =
        iterLoi G.loi G.e g (a + b) := Hadd
    have hspec := dblAdd_spec k hadd (intLog2 k + 1) 0
    simp only [Group.iter]
    rw [hspec]
    congr 1
    have hlt : k < 2 ^ (intLog2 k + 1 + 1) := by
      rw [intLog2_eq_log]
      calc k < 2 ^ (Nat.log 2 k).succ := Nat.lt_pow_succ_log_self (by omega) k
        _ ≤ 2 ^ (Nat.log 2 k + 1 + 1) := Nat.pow_le_pow_right (by omega) (by omega)
    rw [Nat.mod_eq_of_lt hlt]
    omega

/-! ### The multiplicative groups mod p: `loi`-powers are modular powers -/

theorem zpMul_iter (p : Nat) (hp : 1 < p) (NN g : Nat) :
    ∀ k, (zpMulWithOrder p NN).iter g k = g ^ k % p := by
  intro k
  induction k with
  | zero =>
    show (1 : Nat) = g ^ 0 % p
    rw [pow_zero, Nat.mod_eq_of_lt hp]
  | succ k ih =>
    show (zpMulWithOrder p NN).loi ((zpMulWithOrder p NN).iter g k) g = g ^ (k + 1) % p
    rw [ih]
    show g ^ k % p * g % p = g ^ (k + 1) % p
    rw [Nat.mod_mul_mod, pow_succ]

theorem zpMul_iter_add (p : Nat) (hp : 1 < p) (NN g : Nat) :
    ∀ a b, (zpMulWithOrder p NN).loi ((zpMulWithOrder p NN).iter g a)
      ((zpMulWithOrder p NN).iter g b) = (zpMulWithOrder p NN).iter g (a + b) := by
  intro a b
  rw [zpMul_iter p hp, zpMul_iter p hp, zpMul_iter p hp]
  show g ^ a % p * (g ^ b % p) % p = g ^ (a + b) % p
  rw [← Nat.mul_mod, pow_add]

theorem zpMul_iter_ide (p : Nat) (hp : 1 < p) (NN g : Nat) :
    ∀ k, (zpMulWithOrder p NN).loi ((zpMulWithOrder p NN).iter g k) (zpMulWithOrder p NN).e =
      (zpMulWithOrder p NN).iter g k := by
  intro k
  rw [zpMul_iter p hp NN g k]
  show g ^ k % p * 1 % p = g ^ k % p
  rw [Nat.mul_one, Nat.mod_mod_of_dvd _ (dvd_refl p)]

theorem zpMul_exp (p : Nat) (hp : 1 < p) (NN g k : Nat) :
    (zpMulWithOrder p NN).exp g k = g ^ k % p := by
  rw [Group.exp_eq_iter _ g (zpMul_iter_add p hp NN g) k, zpMul_iter p hp]

theorem zpMul_loi_red (p NN : Nat) :
    ∀ a b, (zpMulWithOrder p NN).loi a b % (zpMulWithOrder p NN).p =
      (zpMulWithOrder p NN).loi a b := by
  intro a b
  show a * b % p % p = a * b % p
  rw [Nat.mod_mod_of_dvd _ (dvd_refl p)]

/-! ### Group laws imply the power law used by `exp` -/

theorem iter_add_of_laws {α : Type} (G : Group α) (g : α)
    (Hassoc : ∀ a b c, G.loi (G.loi a b) c = G.loi a (G.loi b c))
    (Hidr : ∀ a, G.loi a G.e = a) :
    ∀ a b, G.loi (G.iter g a) (G.iter g b) = G.iter g (a + b) := by
  intro a b
  induction b with
  | zero => exact Hidr _
  | succ b ih =>
    show G.loi (G.iter g a) (G.loi (G.iter g b) g) = _
    rw [← Hassoc, ih]
    rfl

/-- C5: for every group `G` (associative operation `loi` with identity `e`)
with stored order `N`, and every element `g` whose order divides `N` — that
is, the `N`-fold product of `g` under `loi` equals the identity — the fast
exponentiation satisfies `G.exp g N = G.e`. -/
theorem exp_order_dvd_identity {α : Type} (G : Group α) (g : α)
    (Hassoc : ∀ a b c, G.loi (G.loi a b) c = G.loi a (G.loi b c))
    (Hidr : ∀ a, G.loi a G.e = a)
    (HN : G.iter g G.N = G.e) :
    G.exp g G.N = G.e := by
  rw [G.exp_eq_iter g (iter_add_of_laws G g Hassoc Hidr) G.N, HN]

/-- A concrete three-element instance of the `Group` structure (addition on
`Fin 3`), used to instantiate the abstract-group theorems. -/
def finAddGroup : Group (Fin 3) :=
  { p := 3, N := 3, e := 0, loi := fun a b => a + b }

/-- Witness for C5 at the concrete group `finAddGroup` with `g = 1`. -/
theorem exp_order_dvd_identity_witness :
    (∀ a b c : Fin 3, finAddGroup.loi (finAddGroup.loi a b) c =
      finAddGroup.loi a (finAddGroup.loi b c)) ∧
    (∀ a : Fin 3, finAddGroup.loi a finAddGroup.e = a) ∧
    finAddGroup.iter 1 finAddGroup.N = finAddGroup.e ∧
    finAddGroup.exp 1 finAddGroup.N = finAddGroup.e :=
  ⟨fun a b c => add_assoc a b c, fun a => add_zero a, by decide,
    exp_order_dvd_identity finAddGroup 1 (fun a b c => add_assoc a b c)
      (fun a => add_zero a) (by decide)⟩

/-- C4: the claim says an exhausted discrete-log search signals `NotFound`;
the source has no such signal.  With `g = 1`, `h = 2` in the multiplicative
group mod 5 (`h` is not a power of `g`), the naive search is still running
after any number of iterations — it loops forever instead of failing. -/
theorem DLnaive_diverges_on_unreachable :
    ∀ fuel, (zpMult 5).DLnaive 1 2 fuel = none := by
  have hstep : (zpMult 5).loi 1 1 % (zpMult 5).p = 1 := by decide
  have key : ∀ fuel k, (zpMult 5).DLnaiveF 1 2 1 k fuel = none := by
    intro fuel
    induction fuel with
    | zero =>
      intro k
      rw [Group.DLnaiveF, if_neg (by decide : ¬ (1 = 2))]
    | succ n ih =>
      intro k
      rw [Group.DLnaiveF, if_neg (by decide : ¬ (1 = 2)), hstep]
      exact ih (k + 1)
  intro fuel
  rw [Group.DLnaive]
  exact key fuel 0

/-- C9: `utils.inverse` on a non-unit (x = 2 mod n = 4, gcd 2) does not
surface an error — it silently returns the integer 1 (the Bézout
coefficient mod n), which is not an inverse of 2 modulo 4. -/
theorem inverse_non_unit_silently_returns :
    gcdU 2 4 = 2 ∧ inverseU 2 4 = 1 ∧ ¬ (2 * inverseU 2 4 % 4 = 1) := by
  have hg : gcdU 2 4 = 2 := by
    rw [gcdU]
    norm_num
    rw [gcdU]
    norm_num
    rw [gcdU]
    norm_num
  have hi : inverseU 2 4 = 1 := by
    rw [inverseU, bezout]
    rw [bezoutLoop]
    norm_num
    rw [bezoutLoop]
    norm_num
    rw [bezoutLoop]
    norm_num
  exact ⟨hg, hi, by rw [hi]; decide⟩

/-! ### The ceiling square root used by both square-root algorithms -/

theorem range_find?_min {P : Nat → Bool} :
    ∀ {n x : Nat}, (List.range n).find? P = some x → P x = true ∧ ∀ j < x, P j = false := by
  intro n
  induction n with
  | zero => intro x hx; simp [List.range_zero] at hx
  | succ n ih =>
    intro x hx
    rw [List.range_succ, List.find?_append] at hx
    cases hfl : (List.range n).find? P with
    | some y =>
      rw [hfl] at hx
      have hxy := Option.some.inj hx
      subst hxy
      exact ih hfl
    | none =>
      rw [hfl] at hx
      have hx2 : List.find? P [n] = some x := hx
      have hall : ∀ j ∈ List.range n, ¬ P j = true := List.find?_eq_none.mp hfl
      cases hPn : P n with
      | true =>
        simp only [List.find?_cons, hPn] at hx2
        have hxn := Option.some.inj hx2
        subst hxn
        refine ⟨hPn, fun j hj => ?_⟩
        have hj2 := hall j (List.mem_range.mpr hj)
        simpa using hj2
      | false =>
        simp only [List.find?_cons, hPn] at hx2
        simp at hx2

theorem ceilSqrt_spec (N : Nat) :
    N ≤ ceilSqrt N * ceilSqrt N ∧ ceilSqrt N ≤ N ∧ ∀ j < ceilSqrt N, j * j < N := by
  have hex : ∃ x ∈ List.range (N + 1), decide (N ≤ x * x) = true := by
    refine ⟨N, List.mem_range.mpr (by omega), ?_⟩
    rcases Nat.eq_zero_or_pos N with h0 | hpos
    · subst h0; decide
    · have : N = 1 * N := (Nat.one_mul N).symm
      exact decide_eq_true (le_trans (le_of_eq this) (Nat.mul_le_mul_right N hpos))
  have hsome := List.find?_isSome.mpr hex
  obtain ⟨m, hm⟩ := Option.isSome_iff_exists.mp hsome
  have hgetD : ceilSqrt N = m := by rw [ceilSqrt, hm]; rfl
  have hmem := List.mem_of_find?_eq_some hm
  obtain ⟨hP, hmin⟩ := range_find?_min hm
  refine ⟨?_, ?_, ?_⟩
  · rw [hgetD]; exact of_decide_eq_true hP
  · rw [hgetD]; exact Nat.lt_succ_iff.mp (List.mem_range.mp hmem)
  · intro j hj
    rw [hgetD] at hj
    have := hmin j hj
    have hne := of_decide_eq_false this
    omega

/-! ### Generic correctness of the naive search and baby-step giant-step -/

theorem DLnaiveF_finds (G : Group Nat) (g h : Nat)
    (Hred : ∀ a b, G.loi a b % G.p = G.loi a b)
    (x0 : Nat) (hh : h = G.iter g x0) :
    ∀ fuel k, k ≤ x0 → x0 - k ≤ fuel →
      ∃ r, G.DLnaiveF g h (G.iter g k) k fuel = some r ∧ G.iter g r = h := by
  intro fuel
  induction fuel with
  | zero =>
    intro k hk hfk
    have hkx : k = x0 := by omega
    subst hkx
    exact ⟨k, by rw [Group.DLnaiveF, if_pos hh.symm], hh.symm⟩
  | succ n ih =>
    intro k hk hfk
    by_cases hx : G.iter g k = h
    · exact ⟨k, by rw [Group.DLnaiveF, if_pos hx], hx⟩
    · have hkx : k < x0 := by
        rcases Nat.lt_or_ge k x0 with h1 | h1
        · exact h1
        · exact absurd (by omega : k = x0) (fun e => hx (e ▸ hh.symm))
      have hstep : G.loi (G.iter g k) g % G.p = G.iter g (k + 1) := by
        rw [Hred]; rfl
      obtain ⟨r, hr1, hr2⟩ := ih (k + 1) (by omega) (by omega)
      exact ⟨r, by rw [Group.DLnaiveF, if_neg hx, hstep]; exact hr1, hr2⟩

theorem DLnaive_finds (G : Group Nat) (g h : Nat)
    (Hred : ∀ a b, G.loi a b % G.p = G.loi a b)
    (x0 : Nat) (hh : h = G.iter g x0) (fuel : Nat) (hf : x0 ≤ fuel) :
    ∃ r, G.DLnaive g h fuel = some r ∧ G.iter g r = h := by
  have h0 : G.e = G.iter g 0 := rfl
  rw [Group.DLnaive, h0]
  exact DLnaiveF_finds G g h Hred x0 hh fuel 0 (Nat.zero_le _) (by omega)

theorem bsgs_general (G : Group Nat) (g h : Nat)
    (Hadd : ∀ a b, G.loi (G.iter g a) (G.iter g b) = G.iter g (a + b))
    (Hide : ∀ k, G.loi (G.iter g k) G.e = G.iter g k)
    (HN : G.iter g G.N = G.e)
    (x0 : Nat) (hx0 : x0 < G.N) (hh : h = G.iter g x0)
    (fuel : Nat) (hfuel : x0 % ceilSqrt G.N ≤ fuel) :
    ∃ r, G.babyStepGiantStep g h fuel = some r ∧ G.iter g r = h := by
  obtain ⟨hsq, hwN, hmin⟩ := ceilSqrt_spec G.N
  have hN1 : 1 ≤ G.N := by omega
  have hw0 : 0 < ceilSqrt G.N := by
    rcases Nat.eq_zero_or_pos (ceilSqrt G.N) with h0 | hpos
    · rw [h0] at hsq; omega
    · exact hpos
  have hexp_all : ∀ k, G.exp g k = G.iter g k := G.exp_eq_iter g Hadd
  have iter_add_N : ∀ a, G.iter g (a + G.N) = G.iter g a := by
    intro a
    rw [← Hadd a G.N, HN, Hide]
  have tab_entry : ∀ i, (hi : i < (G.tabI g (ceilSqrt G.N)).length) →
      (G.tabI g (ceilSqrt G.N))[i] = G.iter g (i * ceilSqrt G.N) := by
    intro i hi
    simp only [Group.tabI, List.getElem_map, List.getElem_range, hexp_all]
  have tab_mem : ∀ i, i ≤ ceilSqrt G.N →
      G.iter g (i * ceilSqrt G.N) ∈ G.tabI g (ceilSqrt G.N) := by
    intro i hi
    simp only [Group.tabI]
    exact List.mem_map.mpr ⟨i, List.mem_range.mpr (by omega), by rw [hexp_all]⟩
  have match_correct : ∀ j, j ≤ G.N →
      (hmem : G.loi h (G.exp g (G.N - j)) ∈ G.tabI g (ceilSqrt G.N)) →
      G.iter g (ceilSqrt G.N *
        (G.tabI g (ceilSqrt G.N)).indexOf (G.loi h (G.exp g (G.N - j))) + j) = h := by
    intro j hj hmem
    have hxval : G.loi h (G.exp g (G.N - j)) = G.iter g (x0 + (G.N - j)) := by
      rw [hh, hexp_all, Hadd]
    have hidx : (G.tabI g (ceilSqrt G.N)).indexOf (G.loi h (G.exp g (G.N - j))) <
        (G.tabI g (ceilSqrt G.N)).length := List.indexOf_lt_length.mpr hmem
    have hval := tab_entry _ hidx
    rw [List.getElem_indexOf hidx] at hval
    have hE : G.iter g ((G.tabI g (ceilSqrt G.N)).indexOf (G.loi h (G.exp g (G.N - j))) *
        ceilSqrt G.N) = G.iter g (x0 + (G.N - j)) := by
      rw [← hval, hxval]
    have hgoal : G.iter g (ceilSqrt G.N *
        (G.tabI g (ceilSqrt G.N)).indexOf (G.loi h (G.exp g (G.N - j))) + j) =
        G.iter g (x0 + (G.N - j) + j) := by
      have hc : ceilSqrt G.N *
          (G.tabI g (ceilSqrt G.N)).indexOf (G.loi h (G.exp g (G.N - j))) =
          (G.tabI g (ceilSqrt G.N)).indexOf (G.loi h (G.exp g (G.N - j))) * ceilSqrt G.N := by
        ring
      rw [hc, ← Hadd, hE, Hadd]
    rw [hgoal]
    have hNj : x0 + (G.N - j) + j = x0 + G.N := by omega
    rw [hNj, iter_add_N, hh]
  have found_at_j0 : G.loi h (G.exp g (G.N - x0 % ceilSqrt G.N)) ∈ G.tabI g (ceilSqrt G.N) := by
    have hi0 : x0 / ceilSqrt G.N < ceilSqrt G.N := by
      rw [Nat.div_lt_iff_lt_mul hw0]
      omega
    have hj0w : x0 % ceilSqrt G.N < ceilSqrt G.N := Nat.mod_lt _ hw0
    have hxval : G.loi h (G.exp g (G.N - x0 % ceilSqrt G.N)) =
        G.iter g (x0 + (G.N - x0 % ceilSqrt G.N)) := by
      rw [hh, hexp_all, Hadd]
    have hdm : ceilSqrt G.N * (x0 / ceilSqrt G.N) + x0 % ceilSqrt G.N = x0 :=
      Nat.div_add_mod x0 (ceilSqrt G.N)
    have hcomm : x0 / ceilSqrt G.N * ceilSqrt G.N = ceilSqrt G.N * (x0 / ceilSqrt G.N) :=
      Nat.mul_comm _ _
    have harith : x0 + (G.N - x0 % ceilSqrt G.N) = x0 / ceilSqrt G.N * ceilSqrt G.N + G.N := by
      omega
    rw [hxval, harith, iter_add_N]
    exact tab_mem _ (le_of_lt hi0)
  have loop : ∀ fl j, j ≤ x0 % ceilSqrt G.N → x0 % ceilSqrt G.N - j ≤ fl →
      ∃ r, G.bsgsF g h (G.tabI g (ceilSqrt G.N)) (ceilSqrt G.N) j fl = some r ∧
        G.iter g r = h := by
    intro fl
    induction fl with
    | zero =>
      intro j hj hjf
      have hjj : j = x0 % ceilSqrt G.N := by omega
      subst hjj
      rw [Group.bsgsF, if_pos found_at_j0]
      exact ⟨_, rfl, match_correct _ (by
        have := Nat.mod_lt x0 hw0
        omega) found_at_j0⟩
    | succ n ih =>
      intro j hj hjf
      by_cases hmem : G.loi h (G.exp g (G.N - j)) ∈ G.tabI g (ceilSqrt G.N)
      · rw [Group.bsgsF, if_pos hmem]
        exact ⟨_, rfl, match_correct j (by
          have := Nat.mod_lt x0 hw0
          omega) hmem⟩
      · have hne : j ≠ x0 % ceilSqrt G.N := fun e => hmem (e ▸ found_at_j0)
        rw [Group.bsgsF, if_neg hmem]
        exact ih (j + 1) (by omega) (by omega)
  rw [Group.babyStepGiantStep]
  exact loop fuel 0 (Nat.zero_le _) (by omega)

/-- C3: in a group whose stored order `N` is the order of the cyclic group
generated by `g` (so the `N`-fold product of `g` is `e`), for every `h` in
that cyclic group (`h` equal to the `x0`-fold product of `g`, `x0 < N`),
`babyStepGiantStep g h` terminates within `w = ceilSqrt N` giant steps and
returns a `k` with `exp g k = h`. -/
theorem babyStepGiantStep_finds_dlog (G : Group Nat) (g h : Nat)
    (Hadd : ∀ a b, G.loi (G.iter g a) (G.iter g b) = G.iter g (a + b))
    (Hide : ∀ k, G.loi (G.iter g k) G.e = G.iter g k)
    (HN : G.iter g G.N = G.e)
    (x0 : Nat) (hx0 : x0 < G.N) (hh : h = G.iter g x0) :
    ∃ k, G.babyStepGiantStep g h (ceilSqrt G.N) = some k ∧ G.exp g k = h := by
  obtain ⟨hsq, hwN, hmin⟩ := ceilSqrt_spec G.N
  have hw0 : 0 < ceilSqrt G.N := by
    rcases Nat.eq_zero_or_pos (ceilSqrt G.N) with h0 | hpos
    · rw [h0] at hsq; omega
    · exact hpos
  obtain ⟨r, h1, h2⟩ := bsgs_general G g h Hadd Hide HN x0 hx0 hh (ceilSqrt G.N)
    (le_of_lt (Nat.mod_lt _ hw0))
  exact ⟨r, h1, by rw [G.exp_eq_iter g Hadd]; exact h2⟩

/-- Witness for C3 in the multiplicative subgroup of order 15 mod 31
generated by `g = 9`, with `h = 9^5 mod 31 = 25`. -/
theorem babyStepGiantStep_finds_dlog_witness :
    (zpMulWithOrder 31 15).iter 9 (zpMulWithOrder 31 15).N = (zpMulWithOrder 31 15).e ∧
    (5 : Nat) < (zpMulWithOrder 31 15).N ∧
    (25 : Nat) = (zpMulWithOrder 31 15).iter 9 5 ∧
    ∃ k, (zpMulWithOrder 31 15).babyStepGiantStep 9 25
        (ceilSqrt (zpMulWithOrder 31 15).N) = some k ∧
      (zpMulWithOrder 31 15).exp 9 k = 25 :=
  ⟨by decide, by decide, by decide,
    babyStepGiantStep_finds_dlog (zpMulWithOrder 31 15) 9 25
      (zpMul_iter_add 31 (by norm_num) 15 9) (zpMul_iter_ide 31 (by norm_num) 15 9)
      (by decide) 5 (by decide) (by decide)⟩

/-- C6 counterexample: in the subgroup of order `N = 15` (< 1000) of the
multiplicative group mod 31 generated by `g = 9`, with `h = 9` (so `h` is
in the cyclic group generated by `g`), the naive search returns 1 but
baby-step giant-step returns 16 — different values (16 appears because the
baby-step table contains `g^(w*w)` with `w*w > N`, wrapping past the group
order). -/
theorem dlnaive_bsgs_return_different_values :
    (zpMulWithOrder 31 15).N < 1000 ∧
    (zpMulWithOrder 31 15).DLnaive 9 9 15 = some 1 ∧
    (zpMulWithOrder 31 15).babyStepGiantStep 9 9 4 = some 16 ∧
    (1 : Nat) ≠ 16 := by
  exact ⟨by decide, by decide, by decide, by decide⟩

/-- C6 amended: under the same hypotheses each of the two searches returns
a valid discrete logarithm of `h` (`exp g k = h`); the two returned values
agree modulo the order of `g` but need not be equal as integers. -/
theorem dlnaive_bsgs_both_find (G : Group Nat) (g h : Nat)
    (Hadd : ∀ a b, G.loi (G.iter g a) (G.iter g b) = G.iter g (a + b))
    (Hide : ∀ k, G.loi (G.iter g k) G.e = G.iter g k)
    (Hred : ∀ a b, G.loi a b % G.p = G.loi a b)
    (HN : G.iter g G.N = G.e) (hthr : G.N < 1000)
    (x0 : Nat) (hx0 : x0 < G.N) (hh : h = G.iter g x0) :
    (∃ k1, G.DLnaive g h G.N = some k1 ∧ G.exp g k1 = h) ∧
    (∃ k2, G.babyStepGiantStep g h (ceilSqrt G.N) = some k2 ∧ G.exp g k2 = h) := by
  constructor
  · obtain ⟨r, h1, h2⟩ := DLnaive_finds G g h Hred x0 hh G.N (le_of_lt hx0)
    exact ⟨r, h1, by rw [G.exp_eq_iter g Hadd]; exact h2⟩
  · exact babyStepGiantStep_finds_dlog G g h Hadd Hide HN x0 hx0 hh

/-- Witness for the amended C6 in the order-15 subgroup mod 31, `g = 9`,
`h = 9`. -/
theorem dlnaive_bsgs_both_find_witness :
    (zpMulWithOrder 31 15).iter 9 (zpMulWithOrder 31 15).N = (zpMulWithOrder 31 15).e ∧
    (zpMulWithOrder 31 15).N < 1000 ∧
    (1 : Nat) < (zpMulWithOrder 31 15).N ∧
    (9 : Nat) = (zpMulWithOrder 31 15).iter 9 1 ∧
    ((∃ k1, (zpMulWithOrder 31 15).DLnaive 9 9 (zpMulWithOrder 31 15).N = some k1 ∧
        (zpMulWithOrder 31 15).exp 9 k1 = 9) ∧
      (∃ k2, (zpMulWithOrder 31 15).babyStepGiantStep 9 9
          (ceilSqrt (zpMulWithOrder 31 15).N) = some k2 ∧
        (zpMulWithOrder 31 15).exp 9 k2 = 9)) :=
  ⟨by decide, by decide, by decide, by decide,
    dlnaive_bsgs_both_find (zpMulWithOrder 31 15) 9 9
      (zpMul_iter_add 31 (by norm_num) 15 9) (zpMul_iter_ide 31 (by norm_num) 15 9)
      (zpMul_loi_red 31 15) (by decide) (by decide) 1 (by decide) (by decide)⟩

/-! ### Bridging integer modular arithmetic with `ZMod p` -/

theorem intCast_emod_zmod (p : Nat) (a : Int) :
    (((a % (p : Int)) : Int) : ZMod p) = (a : ZMod p) := by
  rw [Int.emod_def a (p : Int)]
  push_cast
  rw [ZMod.natCast_self]
  ring

theorem int_emod_eq_of_zmod_eq {p : Nat} {a b : Int}
    (h : (a : ZMod p) = (b : ZMod p)) : a % (p : Int) = b % (p : Int) := by
  have hz : ((b - a : Int) : ZMod p) = 0 := by push_cast; rw [h]; ring
  exact Int.modEq_iff_dvd.mpr ((ZMod.intCast_zmod_eq_zero_iff_dvd _ _).mp hz)

theorem int_reduced_eq {p : Nat} {a b : Int} (ha0 : 0 ≤ a) (hap : a < (p : Int))
    (hb0 : 0 ≤ b) (hbp : b < (p : Int)) (h : (a : ZMod p) = (b : ZMod p)) : a = b := by
  have := int_emod_eq_of_zmod_eq h
  rw [Int.emod_eq_of_lt ha0 hap, Int.emod_eq_of_lt hb0 hbp] at this
  exact this

theorem invModInt_spec {p : Nat} (hp : p.Prime) (a : Int) (ha : (a : ZMod p) ≠ 0) :
    a * invModInt a p % (p : Int) = 1 ∧ 0 ≤ invModInt a p ∧ invModInt a p < (p : Int) := by
  haveI : Fact p.Prime := ⟨hp⟩
  haveI : NeZero p := ⟨hp.pos.ne'⟩
  have hp1 : (1 : Int) < (p : Int) := by exact_mod_cast hp.one_lt
  have hpred : a * (((a : ZMod p)⁻¹.val : Nat) : Int) % (p : Int) = 1 := by
    apply int_reduced_eq (Int.emod_nonneg _ (by omega)) (Int.emod_lt_of_pos _ (by omega))
      (by omega) hp1
    rw [intCast_emod_zmod]
    push_cast
    rw [ZMod.natCast_rightInverse _]
    exact mul_inv_cancel₀ ha
  have hex : ∃ x ∈ List.range p, decide (a * (x : Int) % (p : Int) = 1) = true :=
    ⟨(a : ZMod p)⁻¹.val, List.mem_range.mpr (ZMod.val_lt _), decide_eq_true hpred⟩
  obtain ⟨z, hz⟩ := Option.isSome_iff_exists.mp (List.find?_isSome.mpr hex)
  have hzm := List.mem_of_find?_eq_some hz
  have hzp0 := List.find?_some hz
  simp only [decide_eq_true_eq] at hzp0
  have hzp : a * (z : Int) % (p : Int) = 1 := hzp0
  have hval : invModInt a p = (z : Int) := by rw [invModInt, hz]; rfl
  rw [hval]
  exact ⟨hzp, by positivity, by exact_mod_cast List.mem_range.mp hzm⟩

theorem invModInt_cast {p : Nat} (hp : p.Prime) (a : Int) (ha : (a : ZMod p) ≠ 0) :
    ((invModInt a p : Int) : ZMod p) = (a : ZMod p)⁻¹ := by
  obtain ⟨h1, _, _⟩ := invModInt_spec hp a ha
  have hmul : (a : ZMod p) * ((invModInt a p : Int) : ZMod p) = 1 := by
    calc (a : ZMod p) * ((invModInt a p : Int) : ZMod p)
        = ((a * invModInt a p : Int) : ZMod p) := by push_cast; ring
      _ = ((a * invModInt a p % (p : Int) : Int) : ZMod p) := (intCast_emod_zmod _ _).symm
      _ = ((1 : Int) : ZMod p) := by rw [h1]
      _ = 1 := by push_cast; rfl
  have hu : IsUnit (a : ZMod p) :=
    ⟨⟨(a : ZMod p), ((invModInt a p : Int) : ZMod p), hmul, by rw [mul_comm]; exact hmul⟩, rfl⟩
  calc ((invModInt a p : Int) : ZMod p)
      = (a : ZMod p)⁻¹ * ((a : ZMod p) * ((invModInt a p : Int) : ZMod p)) := by
        rw [← mul_assoc, ZMod.inv_mul_of_unit _ hu, one_mul]
    _ = (a : ZMod p)⁻¹ := by rw [hmul, mul_one]

theorem int_nonzero_zmod {p : Nat} (hp : 0 < p) {a b : Int} (ha0 : 0 ≤ a)
    (hap : a < (p : Int)) (hb0 : 0 ≤ b) (hbp : b < (p : Int)) (hne : a ≠ b) :
    ((b - a : Int) : ZMod p) ≠ 0 := by
  intro h0
  have hdvd := (ZMod.intCast_zmod_eq_zero_iff_dvd _ _).mp h0
  have : a % (p : Int) = b % (p : Int) := Int.modEq_iff_dvd.mpr (by
    have : b - a = (b - a) * 1 := by ring
    simpa using hdvd)
  rw [Int.emod_eq_of_lt ha0 hap, Int.emod_eq_of_lt hb0 hbp] at this
  exact hne this

theorem neg_emod_emod (p : Nat) (a : Int) :
    (-(a % (p : Int))) % (p : Int) = (-a) % (p : Int) :=
  Int.ModEq.neg (Int.emod_emod_of_dvd a dvd_rfl)

theorem opp_involution (p : Nat) (hp : 0 < p) (y : Int) (hy0 : 0 ≤ y)
    (hyp : y < (p : Int)) : (-((-y) % (p : Int))) % (p : Int) = y := by
  rw [neg_emod_emod, neg_neg, Int.emod_eq_of_lt hy0 hyp]

/-! ### Elliptic-curve point validity and the identity laws (C7) -/

/-- A non-identity valid curve point in the sense of the spec's data model:
a pair of reduced field elements satisfying the curve equation. -/
def ECConZp.pairPt (E : ECConZp) (P : List Int) : Prop :=
  ∃ x y : Int, P = [x, y] ∧ 0 ≤ x ∧ x < (E.p : Int) ∧ 0 ≤ y ∧ y < (E.p : Int) ∧
    y ^ 2 % (E.p : Int) = (x ^ 3 + E.A * x + E.B) % (E.p : Int)

/-- A valid curve point: the identity sentinel or an on-curve pair. -/
def ECConZp.validPt (E : ECConZp) (P : List Int) : Prop :=
  P = E.e ∨ E.pairPt P

theorem ecLoi_e_right (E : ECConZp) (P : List Int) : E.loi P E.e = P := by
  rw [ECConZp.loi]
  by_cases h : P = E.e
  · rw [if_pos h]; exact h.symm
  · rw [if_neg h, if_pos rfl]

theorem ecLoi_e_left (E : ECConZp) (Q : List Int) : E.loi E.e Q = Q := by
  rw [ECConZp.loi, if_pos rfl]

/-- Characterisation of `pairPt` on a literal coordinate pair. -/
theorem ECConZp.pairPt_pair (E : ECConZp) (x y : Int) :
    E.pairPt [x, y] ↔ 0 ≤ x ∧ x < (E.p : Int) ∧ 0 ≤ y ∧ y < (E.p : Int) ∧
      y ^ 2 % (E.p : Int) = (x ^ 3 + E.A * x + E.B) % (E.p : Int) := by
  constructor
  · rintro ⟨x', y', hxy, hx0, hxp, hy0, hyp, hc⟩
    have h1 : x = x' := by injection hxy
    have h2 : y = y' := by
      injection hxy with ha hb
      injection hb
    subst h1
    subst h2
    exact ⟨hx0, hxp, hy0, hyp, hc⟩
  · rintro ⟨hx0, hxp, hy0, hyp, hc⟩
    exact ⟨x, y, rfl, hx0, hxp, hy0, hyp, hc⟩

/-- The negated point of an on-curve pair is an on-curve pair. -/
theorem ECConZp.pairPt_neg (E : ECConZp) (hp : 0 < E.p) (x y : Int)
    (hP : E.pairPt [x, y]) : E.pairPt [x, (-y) % (E.p : Int)] := by
  rw [ECConZp.pairPt_pair] at hP ⊢
  obtain ⟨hx0, hxp, hy0, hyp, hcurve⟩ := hP
  have hpI : (0 : Int) < (E.p : Int) := by exact_mod_cast hp
  refine ⟨hx0, hxp, Int.emod_nonneg _ (by omega), Int.emod_lt_of_pos _ hpI, ?_⟩
  have hsq : ((((-y) % (E.p : Int)) ^ 2 : Int) : ZMod E.p) = ((y ^ 2 : Int) : ZMod E.p) := by
    push_cast
    ring
  rw [int_emod_eq_of_zmod_eq hsq]
  exact hcurve

/-- C7: in an elliptic-curve group over a prime field whose identity
sentinel is distinct from every valid coordinate pair, for all valid
curve points: `loi P e = P`; `loi P (-P) = e` where `-P` negates the
y-coordinate mod p; and `loi P Q = loi Q P`. -/
theorem ec_point_identity_laws (E : ECConZp) (hp : E.p.Prime)
    (Hsent : ∀ P, E.pairPt P → P ≠ E.e) :
    (∀ P, E.validPt P → E.loi P E.e = P) ∧
    (∀ x y, E.pairPt [x, y] → E.loi [x, y] [x, (-y) % (E.p : Int)] = E.e) ∧
    (∀ P Q, E.validPt P → E.validPt Q → E.loi P Q = E.loi Q P) := by
  haveI : Fact E.p.Prime := ⟨hp⟩
  have hp0 : 0 < E.p := hp.pos
  have hpI : (0 : Int) < (E.p : Int) := by exact_mod_cast hp0
  refine ⟨fun P _ => ecLoi_e_right E P, ?_, ?_⟩
  · -- the opposite law
    intro x y hP
    have hPne : [x, y] ≠ E.e := Hsent _ hP
    have hQ := E.pairPt_neg hp0 x y hP
    have hQne : [x, (-y) % (E.p : Int)] ≠ E.e := Hsent _ hQ
    rw [ECConZp.pairPt_pair] at hP
    obtain ⟨hx0, hxp, hy0, hyp, hcurve⟩ := hP
    rw [ECConZp.loi, if_neg hPne, if_neg hQne]
    have hxx : ([x, y] : List Int).getD 0 0 =
        ([x, (-y) % (E.p : Int)] : List Int).getD 0 0 := rfl
    have hopp : ([x, y] : List Int).getD 1 0 =
        (-(([x, (-y) % (E.p : Int)] : List Int).getD 1 0)) % (E.p : Int) :=
      (opp_involution E.p hp0 y hy0 hyp).symm
    rw [if_pos hxx, if_pos hopp]
  · -- commutativity
    intro P Q hvP hvQ
    rcases hvP with hPe | hP
    · rw [hPe, ecLoi_e_left, ecLoi_e_right]
    rcases hvQ with hQe | hQ
    · rw [hQe, ecLoi_e_left, ecLoi_e_right]
    have hPne : P ≠ E.e := Hsent _ hP
    have hQne : Q ≠ E.e := Hsent _ hQ
    obtain ⟨x1, y1, hP1, hx10, hx1p, hy10, hy1p, hc1⟩ := hP
    obtain ⟨x2, y2, hQ2, hx20, hx2p, hy20, hy2p, hc2⟩ := hQ
    subst hP1
    subst hQ2
    by_cases hx12 : x1 = x2
    · -- same x-coordinate: the points are equal or opposite
      subst hx12
      by_cases hopp : y1 = (-y2) % (E.p : Int)
      · -- opposite points: both orders land in the identity branch
        have hopp2 : y2 = (-y1) % (E.p : Int) := by
          rw [hopp]
          exact (opp_involution E.p hp0 y2 hy20 hy2p).symm
        have hxxa : ([x1, y1] : List Int).getD 0 0 = ([x1, y2] : List Int).getD 0 0 := rfl
        have hxxb : ([x1, y2] : List Int).getD 0 0 = ([x1, y1] : List Int).getD 0 0 := rfl
        have hoppa : ([x1, y1] : List Int).getD 1 0 =
            (-(([x1, y2] : List Int).getD 1 0)) % (E.p : Int) := hopp
        have hoppb : ([x1, y2] : List Int).getD 1 0 =
            (-(([x1, y1] : List Int).getD 1 0)) % (E.p : Int) := hopp2
        rw [ECConZp.loi, if_neg hPne, if_neg hQne, if_pos hxxa, if_pos hoppa,
          ECConZp.loi, if_neg hQne, if_neg hPne, if_pos hxxb, if_pos hoppb]
      · -- not opposite: the curve equation forces the points to coincide
        have hyy : y1 = y2 := by
          have hsq : ((y1 : ZMod E.p)) ^ 2 = ((y2 : ZMod E.p)) ^ 2 := by
            have hcc := congrArg (fun z : Int => ((z : Int) : ZMod E.p)) (hc1.trans hc2.symm)
            simp only at hcc
            rw [intCast_emod_zmod, intCast_emod_zmod] at hcc
            push_cast at hcc
            exact hcc
          have hfac : ((y1 : ZMod E.p) - y2) * ((y1 : ZMod E.p) + y2) = 0 := by
            calc ((y1 : ZMod E.p) - y2) * ((y1 : ZMod E.p) + y2)
                = ((y1 : ZMod E.p)) ^ 2 - ((y2 : ZMod E.p)) ^ 2 := by ring
              _ = 0 := by rw [hsq]; ring
          rcases mul_eq_zero.mp hfac with h0 | h0
          · exact int_reduced_eq hy10 hy1p hy20 hy2p (by
              have hcast := sub_eq_zero.mp h0
              exact_mod_cast hcast)
          · exfalso
            apply hopp
            have hcast : (y1 : ZMod E.p) = (((-y2) % (E.p : Int) : Int) : ZMod E.p) := by
              rw [intCast_emod_zmod]
              push_cast
              exact_mod_cast add_eq_zero_iff_eq_neg.mp h0
            exact int_reduced_eq hy10 hy1p (Int.emod_nonneg _ (by omega))
              (Int.emod_lt_of_pos _ hpI) hcast
        rw [hyy]
    · -- distinct x-coordinates: the chord construction is symmetric
      have hx21 : x2 ≠ x1 := fun h => hx12 h.symm
      have hd1 : ((x2 - x1 : Int) : ZMod E.p) ≠ 0 :=
        int_nonzero_zmod hp0 hx10 hx1p hx20 hx2p hx12
      have hd2 : ((x1 - x2 : Int) : ZMod E.p) ≠ 0 :=
        int_nonzero_zmod hp0 hx20 hx2p hx10 hx1p hx21
      have hi1 : ((invModInt (x2 - x1) E.p : Int) : ZMod E.p) =
          ((x2 : ZMod E.p) - (x1 : ZMod E.p))⁻¹ := by
        rw [invModInt_cast hp (x2 - x1) hd1]
        congr 1
        push_cast
        ring
      have hi2 : ((invModInt (x1 - x2) E.p : Int) : ZMod E.p) =
          ((x1 : ZMod E.p) - (x2 : ZMod E.p))⁻¹ := by
        rw [invModInt_cast hp (x1 - x2) hd2]
        congr 1
        push_cast
        ring
      have hgd1 : ((x1 : ZMod E.p)) - ((x2 : ZMod E.p)) ≠ 0 := by
        intro h0
        apply hd2
        push_cast
        rw [show ((x1 : ZMod E.p) - (x2 : ZMod E.p)) = 0 from h0]
      have hgd2 : ((x2 : ZMod E.p)) - ((x1 : ZMod E.p)) ≠ 0 := by
        intro h0
        apply hd1
        push_cast
        rw [show ((x2 : ZMod E.p) - (x1 : ZMod E.p)) = 0 from h0]
      have hlam : (y2 - y1) * invModInt (x2 - x1) E.p % (E.p : Int) =
          (y1 - y2) * invModInt (x1 - x2) E.p % (E.p : Int) := by
        apply int_emod_eq_of_zmod_eq
        push_cast
        rw [hi1, hi2]
        rw [show ((x1 : ZMod E.p) - (x2 : ZMod E.p)) =
          -((x2 : ZMod E.p) - (x1 : ZMod E.p)) from by ring, inv_neg]
        ring
      rw [ECConZp.loi, if_neg hPne, if_neg hQne, ECConZp.loi, if_neg hQne, if_neg hPne]
      have hgP0 : ([x1, y1] : List Int).getD 0 0 = x1 := rfl
      have hgQ0 : ([x2, y2] : List Int).getD 0 0 = x2 := rfl
      rw [hgP0, hgQ0, if_neg hx12, if_neg hx21]
      show
        [(((y2 - y1) * invModInt (x2 - x1) E.p % (E.p : Int)) ^ 2 - x1 - x2) % (E.p : Int),
          (((y2 - y1) * invModInt (x2 - x1) E.p % (E.p : Int)) *
            (x1 - (((y2 - y1) * invModInt (x2 - x1) E.p % (E.p : Int)) ^ 2 - x1 - x2) %
              (E.p : Int)) - y1) % (E.p : Int)] =
        [(((y1 - y2) * invModInt (x1 - x2) E.p % (E.p : Int)) ^ 2 - x2 - x1) % (E.p : Int),
          (((y1 - y2) * invModInt (x1 - x2) E.p % (E.p : Int)) *
            (x2 - (((y1 - y2) * invModInt (x1 - x2) E.p % (E.p : Int)) ^ 2 - x2 - x1) %
              (E.p : Int)) - y2) % (E.p : Int)]
      rw [← hlam]
      rw [show (((y2 - y1) * invModInt (x2 - x1) E.p % (E.p : Int)) ^ 2 - x2 - x1 : Int) =
        (((y2 - y1) * invModInt (x2 - x1) E.p % (E.p : Int)) ^ 2 - x1 - x2 : Int) from by ring]
      have hy3 : (((y2 - y1) * invModInt (x2 - x1) E.p % (E.p : Int)) *
            (x1 - (((y2 - y1) * invModInt (x2 - x1) E.p % (E.p : Int)) ^ 2 - x1 - x2) %
              (E.p : Int)) - y1) % (E.p : Int) =
          (((y2 - y1) * invModInt (x2 - x1) E.p % (E.p : Int)) *
            (x2 - (((y2 - y1) * invModInt (x2 - x1) E.p % (E.p : Int)) ^ 2 - x1 - x2) %
              (E.p : Int)) - y2) % (E.p : Int) := by
        apply int_emod_eq_of_zmod_eq
        push_cast
        rw [hi1]
        field_simp
        ring
      rw [hy3]

/-! ### A concrete curve: y² = x³ + 2x + 2 over F17, generator (5,1) of
prime order 19, sentinel `[0]` (a list distinct from every coordinate
pair; `main.py` never fixes a sentinel, so instances choose one). -/

def curve17 : ECConZp :=
  { A := 2, B := 2, G := [5, 1], p := 17, N := 19, e := [0] }

theorem curve17_sent : ∀ P, curve17.pairPt P → P ≠ curve17.e := by
  rintro P ⟨x, y, rfl, -, -, -, -, -⟩ hc
  have hlen := congrArg List.length hc
  simp [curve17] at hlen

/-- Witness for C7 on `curve17` with P = (5,1), Q = (6,3). -/
theorem ec_point_identity_laws_witness :
    Nat.Prime curve17.p ∧
    curve17.pairPt [5, 1] ∧
    curve17.pairPt [6, 3] ∧
    curve17.loi [5, 1] curve17.e = [5, 1] ∧
    curve17.loi [5, 1] [5, (-1) % (curve17.p : Int)] = curve17.e ∧
    curve17.loi [5, 1] [6, 3] = curve17.loi [6, 3] [5, 1] := by
  have hP51 : curve17.pairPt [5, 1] :=
    ⟨5, 1, rfl, by decide, by decide, by decide, by decide, by decide⟩
  have hP63 : curve17.pairPt [6, 3] :=
    ⟨6, 3, rfl, by decide, by decide, by decide, by decide, by decide⟩
  have hmain := ec_point_identity_laws curve17 (by decide) curve17_sent
  exact ⟨by decide, hP51, hP63, hmain.1 [5, 1] (Or.inr hP51), hmain.2.1 5 1 hP51,
    hmain.2.2 [5, 1] [6, 3] (Or.inr hP51) (Or.inr hP63)⟩

/-! ### ECDSA (C8 and C2) -/

/-- Convenience wrapper: the iterated point sum of `P` in the curve group. -/
def ECConZp.iter (E : ECConZp) (P : List Int) (k : Nat) : List Int :=
  iterLoi E.loi E.e P k

/-- The double-and-add scalar multiplication computes the iterated sum. -/
theorem ECConZp.ecExp_eq_iter (E : ECConZp) (P : List Int)
    (Hadd : ∀ a b, E.loi (E.iter P a) (E.iter P b) = E.iter P (a + b)) (k : Nat) :
    E.exp P k = E.iter P k := by
  by_cases hk : k = 0
  · subst hk; rfl
  · rw [ECConZp.exp, if_neg hk]
    have h0 : E.e = E.iter P 0 := rfl
    rw [h0]
    have hadd : ∀ a b, E.loi (iterLoi E.loi E.e P a) (iterLoi E.loi E.e P b) =
        iterLoi E.loi E.e P (a + b) := Hadd
    have hspec := dblAdd_spec k hadd (intLog2 k + 1) 0
    simp only [ECConZp.iter]
    rw [hspec]
    congr 1
    have hlt : k < 2 ^ (intLog2 k + 1 + 1) := by
      rw [intLog2_eq_log]
      calc k < 2 ^ (Nat.log 2 k).succ := Nat.lt_pow_succ_log_self (by omega) k
        _ ≤ 2 ^ (Nat.log 2 k + 1 + 1) := Nat.pow_le_pow_right (by omega) (by omega)
    rw [Nat.mod_eq_of_lt hlt]
    omega

/-- Iterating from the point `d·G` lands on multiples of `d`. -/
theorem ECConZp.iter_base (E : ECConZp) (d : Nat)
    (Hadd : ∀ a b, E.loi (E.iter E.G a) (E.iter E.G b) = E.iter E.G (a + b)) :
    ∀ u, E.iter (E.iter E.G d) u = E.iter E.G (d * u) := by
  intro u
  induction u with
  | zero =>
    show E.e = E.iter E.G (d * 0)
    rw [Nat.mul_zero]
    rfl
  | succ u ih =>
    show E.loi (E.iter (E.iter E.G d) u) (E.iter E.G d) = _
    rw [ih, Hadd]
    congr 1

/-- With `G` of order dividing `N`, iterated sums only depend on the
exponent mod `N`. -/
theorem ECConZp.iter_mod (E : ECConZp) (hN : 0 < E.N)
    (Hadd : ∀ a b, E.loi (E.iter E.G a) (E.iter E.G b) = E.iter E.G (a + b))
    (Hord : E.iter E.G E.N = E.e) :
    ∀ a, E.iter E.G a = E.iter E.G (a % E.N) := by
  intro a
  induction a using Nat.strong_induction_on with
  | _ a ih =>
    by_cases h : a < E.N
    · rw [Nat.mod_eq_of_lt h]
    · push_neg at h
      have hEq : E.iter E.G a = E.iter E.G ((a - E.N) + E.N) := by
        congr 1
        omega
      rw [hEq, ← Hadd, Hord, ecLoi_e_right, ih (a - E.N) (by omega),
        Nat.mod_eq_sub_mod h]

/-- C8 counterexample: on `curve17` with `m = d = 1` and ephemeral scalar
`k = 7` (so `K = 7·G = (0, 6)` and `t = 0`), `ECDSA_sign` does not fail:
it returns the signature `(0, 11)` whose first component is 0. -/
theorem ecdsa_sign_zero_t_counterexample :
    curve17.ECDSA_sign 1 1 7 = (0, 11) := by decide

/-- C8 amended: when the ephemeral point's x-coordinate reduces to 0 mod N,
`ECDSA_sign` returns the pair `(0, s)` instead of failing; every such
signature is rejected by `ECDSA_verif`'s range check. -/
theorem ecdsa_sign_zero_t_behavior (E : ECConZp) (m d k : Nat)
    (ht : (E.exp E.G k).getD 0 0 % (E.N : Int) = 0) :
    (E.ECDSA_sign m d k).1 = 0 ∧
    ∀ Q, E.ECDSA_verif Q m (E.ECDSA_sign m d k) = false := by
  have h1 : (E.ECDSA_sign m d k).1 = 0 := by
    simp only [ECConZp.ECDSA_sign]
    exact ht
  refine ⟨h1, fun Q => ?_⟩
  simp only [ECConZp.ECDSA_verif, h1]
  rw [if_pos (Or.inl (fun hc => absurd hc.1 (lt_irrefl (0 : Int))))]

/-- Witness for the amended C8 on `curve17` with `k = 7`. -/
theorem ecdsa_sign_zero_t_behavior_witness :
    (curve17.exp curve17.G 7).getD 0 0 % (curve17.N : Int) = 0 ∧
    ((curve17.ECDSA_sign 1 1 7).1 = 0 ∧
      ∀ Q, curve17.ECDSA_verif Q 1 (curve17.ECDSA_sign 1 1 7) = false) :=
  ⟨by decide, ecdsa_sign_zero_t_behavior curve17 1 1 7 (by decide)⟩

/-- C2 counterexample: with private key `d = 1`, message `m = 1`, and the
ephemeral scalar `k = 7` the signer may draw, the signature produced by
`ECDSA_sign` has `t = 0` and `ECDSA_verif` on the matching public key
returns false — the round-trip does not always verify. -/
theorem ecdsa_roundtrip_counterexample :
    curve17.ECDSA_verif (curve17.exp curve17.G 1) 1 (curve17.ECDSA_sign 1 1 7) = false := by
  decide

/-- Core acceptance lemma for ECDSA verification: a signature `(tI, sI)`
built exactly as `ECDSA_sign` builds it, with both components nonzero,
is accepted by `ECDSA_verif` on the public key `d·G`. -/
theorem ecdsa_verif_accepts (E : ECConZp) (m d k : Nat) (tI sI : Int)
    (hNp : E.N.Prime)
    (Hadd : ∀ a b, E.loi (E.iter E.G a) (E.iter E.G b) = E.iter E.G (a + b))
    (Hord : E.iter E.G E.N = E.e)
    (hk1 : 1 ≤ k) (hkN : k ≤ E.N - 1)
    (htdef : tI = (E.exp E.G k).getD 0 0 % (E.N : Int))
    (hsdef : sI = ((m : Int) + (d : Int) * tI) * invModInt (k : Int) E.N % (E.N : Int))
    (ht0 : tI ≠ 0) (hs0 : sI ≠ 0) :
    E.ECDSA_verif (E.exp E.G d) m (tI, sI) = true := by
  haveI : Fact E.N.Prime := ⟨hNp⟩
  have hN2 : 2 ≤ E.N := hNp.two_le
  have hNI : (0 : Int) < (E.N : Int) := by exact_mod_cast hNp.pos
  have h0t : 0 ≤ tI := htdef ▸ Int.emod_nonneg _ (by omega)
  have htN : tI < (E.N : Int) := htdef ▸ Int.emod_lt_of_pos _ hNI
  have h0s : 0 ≤ sI := hsdef ▸ Int.emod_nonneg _ (by omega)
  have hsN : sI < (E.N : Int) := hsdef ▸ Int.emod_lt_of_pos _ hNI
  -- inverse of the ephemeral scalar mod N
  have hkZ : (((k : Int)) : ZMod E.N) ≠ 0 := by
    intro h0
    have hdvd : E.N ∣ k := by
      have := (ZMod.intCast_zmod_eq_zero_iff_dvd _ _).mp h0
      exact_mod_cast this
    have := Nat.le_of_dvd (by omega) hdvd
    omega
  obtain ⟨hkinv, hkinv0, hkinvN⟩ := invModInt_spec hNp (k : Int) hkZ
  -- inverse of s mod N
  have hsZ : ((sI : Int) : ZMod E.N) ≠ 0 := by
    intro h0
    have hdvd := (ZMod.intCast_zmod_eq_zero_iff_dvd _ _).mp h0
    have := Int.le_of_dvd (by omega) hdvd
    omega
  obtain ⟨hsinv, hsinv0, hsinvN⟩ := invModInt_spec hNp sI hsZ
  -- iterated-sum forms of the three exponentiations in the verifier
  have hexpG : ∀ u, E.exp E.G u = E.iter E.G u := fun u => E.ecExp_eq_iter E.G Hadd u
  have hQiter := E.iter_base d Hadd
  have HaddQ : ∀ a b, E.loi (E.iter (E.iter E.G d) a) (E.iter (E.iter E.G d) b) =
      E.iter (E.iter E.G d) (a + b) := by
    intro a b
    rw [hQiter, hQiter, hQiter, Hadd]
    congr 1
    ring
  -- the numeric congruence: m*s' + d*(t'*s') is congruent to k mod N
  have hkk : k * (invModInt (k : Int) E.N).toNat % E.N = 1 := by
    have h2 : ((k * (invModInt (k : Int) E.N).toNat % E.N : Nat) : Int) = ((1 : Nat) : Int) := by
      rw [Int.natCast_mod]
      push_cast
      rw [Int.toNat_of_nonneg hkinv0, hkinv]
    exact_mod_cast h2
  have hss : sI.toNat * (invModInt sI E.N).toNat % E.N = 1 := by
    have h2 : ((sI.toNat * (invModInt sI E.N).toNat % E.N : Nat) : Int) = ((1 : Nat) : Int) := by
      rw [Int.natCast_mod]
      push_cast
      rw [Int.toNat_of_nonneg h0s, Int.toNat_of_nonneg hsinv0, hsinv]
    exact_mod_cast h2
  have hsNat : sI.toNat = (m + d * tI.toNat) * (invModInt (k : Int) E.N).toNat % E.N := by
    have h2 : ((sI.toNat : Nat) : Int) =
        (((m + d * tI.toNat) * (invModInt (k : Int) E.N).toNat % E.N : Nat) : Int) := by
      rw [Int.toNat_of_nonneg h0s, Int.natCast_mod]
      push_cast
      rw [Int.toNat_of_nonneg h0t, Int.toNat_of_nonneg hkinv0]
      exact hsdef
    exact_mod_cast h2
  have hsk : sI.toNat * k ≡ m + d * tI.toNat [MOD E.N] := by
    have e1 : sI.toNat ≡ (m + d * tI.toNat) * (invModInt (k : Int) E.N).toNat [MOD E.N] := by
      rw [hsNat]
      exact Nat.mod_modEq _ _
    have e2 : k * (invModInt (k : Int) E.N).toNat ≡ 1 [MOD E.N] := by
      show k * (invModInt (k : Int) E.N).toNat % E.N = 1 % E.N
      rw [hkk, Nat.mod_eq_of_lt (by omega)]
    calc sI.toNat * k
        ≡ (m + d * tI.toNat) * (invModInt (k : Int) E.N).toNat * k [MOD E.N] :=
          e1.mul_right k
      _ = (m + d * tI.toNat) * (k * (invModInt (k : Int) E.N).toNat) := by ring
      _ ≡ (m + d * tI.toNat) * 1 [MOD E.N] := Nat.ModEq.mul_left _ e2
      _ = m + d * tI.toNat := by ring
  have hcong : m * (invModInt sI E.N).toNat +
      d * (tI.toNat * (invModInt sI E.N).toNat) ≡ k [MOD E.N] := by
    have e3 : sI.toNat * (invModInt sI E.N).toNat ≡ 1 [MOD E.N] := by
      show sI.toNat * (invModInt sI E.N).toNat % E.N = 1 % E.N
      rw [hss, Nat.mod_eq_of_lt (by omega)]
    calc m * (invModInt sI E.N).toNat + d * (tI.toNat * (invModInt sI E.N).toNat)
        = (invModInt sI E.N).toNat * (m + d * tI.toNat) := by ring
      _ ≡ (invModInt sI E.N).toNat * (sI.toNat * k) [MOD E.N] :=
          Nat.ModEq.mul_left _ hsk.symm
      _ = (sI.toNat * (invModInt sI E.N).toNat) * k := by ring
      _ ≡ 1 * k [MOD E.N] := Nat.ModEq.mul_right k e3
      _ = k := by ring
  -- the verifier recomputes K
  have hR : E.loi (E.exp E.G (m * (invModInt sI E.N).toNat))
      (E.exp (E.exp E.G d) (tI.toNat * (invModInt sI E.N).toNat)) =
      E.iter E.G (m * (invModInt sI E.N).toNat + d * (tI.toNat * (invModInt sI E.N).toNat)) := by
    rw [hexpG d, E.ecExp_eq_iter (E.iter E.G d) HaddQ, hQiter, hexpG, Hadd]
  have hfinal : (E.loi (E.exp E.G (m * (invModInt sI E.N).toNat))
      (E.exp (E.exp E.G d) (tI.toNat * (invModInt sI E.N).toNat))).getD 0 0 %
      (E.N : Int) = tI := by
    rw [hR, E.iter_mod (by omega) Hadd Hord,
      show (m * (invModInt sI E.N).toNat + d * (tI.toNat * (invModInt sI E.N).toNat)) % E.N =
        k % E.N from hcong,
      Nat.mod_eq_of_lt (by omega : k < E.N), ← hexpG k]
    exact htdef.symm
  have hcond : ¬ (¬ (tI > 0 ∧ tI ≤ (E.N : Int) - 1) ∨
      ¬ (sI > 0 ∧ sI ≤ (E.N : Int) - 1)) := by
    push_neg
    exact ⟨⟨by omega, by omega⟩, ⟨by omega, by omega⟩⟩
  simp only [ECConZp.ECDSA_verif]
  rw [if_neg hcond, if_pos hfinal]

/-- C2 amended: the ECDSA round-trip verifies for every curve group whose
generator `G` has prime order `N`, every private scalar `d` in `[1, N-1]`,
every message hash `m`, and every drawn ephemeral scalar `k` in `[1, N-1]`,
*provided* the produced signature components `t` and `s` are nonzero (when
`t = 0` or `s = 0` the verifier rejects the genuine signature, as the
counterexample shows). -/
theorem ecdsa_roundtrip_verifies (E : ECConZp) (m d k : Nat)
    (hNp : E.N.Prime)
    (Hadd : ∀ a b, E.loi (E.iter E.G a) (E.iter E.G b) = E.iter E.G (a + b))
    (Hord : E.iter E.G E.N = E.e)
    (hd1 : 1 ≤ d) (hdN : d ≤ E.N - 1)
    (hk1 : 1 ≤ k) (hkN : k ≤ E.N - 1)
    (ht0 : (E.ECDSA_sign m d k).1 ≠ 0)
    (hs0 : (E.ECDSA_sign m d k).2 ≠ 0) :
    E.ECDSA_verif (E.exp E.G d) m (E.ECDSA_sign m d k) = true := by
  have hsign : E.ECDSA_sign m d k =
      ((E.exp E.G k).getD 0 0 % (E.N : Int),
       ((m : Int) + (d : Int) * ((E.exp E.G k).getD 0 0 % (E.N : Int))) *
         invModInt (k : Int) E.N % (E.N : Int)) := rfl
  rw [hsign] at ht0 hs0 ⊢
  exact ecdsa_verif_accepts E m d k _ _ hNp Hadd Hord hk1 hkN rfl rfl ht0 hs0

/-! ### The power law on `curve17`, established by finite verification -/

theorem ECConZp.iter_succ (E : ECConZp) (P : List Int) (k : Nat) :
    E.iter P (k + 1) = E.loi (E.iter P k) P := rfl

theorem curve17_iter_period :
    ∀ a, curve17.iter curve17.G (a + 19) = curve17.iter curve17.G a := by
  intro a
  induction a with
  | zero => decide
  | succ a ih =>
    have hidx : a + 1 + 19 = (a + 19) + 1 := by omega
    rw [hidx, ECConZp.iter_succ, ih, ← ECConZp.iter_succ]

theorem curve17_iter_mod :
    ∀ a, curve17.iter curve17.G a = curve17.iter curve17.G (a % 19) := by
  intro a
  induction a using Nat.strong_induction_on with
  | _ a ih =>
    by_cases h : a < 19
    · rw [Nat.mod_eq_of_lt h]
    · push_neg at h
      have hEq : curve17.iter curve17.G a = curve17.iter curve17.G ((a - 19) + 19) := by
        congr 1
        omega
      rw [hEq, curve17_iter_period, ih (a - 19) (by omega), Nat.mod_eq_sub_mod h]

set_option maxHeartbeats 1600000 in
theorem curve17_iter_fin :
    ∀ a, a < 19 → ∀ b, b < 19 →
      curve17.loi (curve17.iter curve17.G a) (curve17.iter curve17.G b) =
        curve17.iter curve17.G ((a + b) % 19) := by decide

theorem curve17_iter_add : ∀ a b,
    curve17.loi (curve17.iter curve17.G a) (curve17.iter curve17.G b) =
      curve17.iter curve17.G (a + b) := by
  intro a b
  rw [curve17_iter_mod a, curve17_iter_mod b, curve17_iter_mod (a + b)]
  rw [curve17_iter_fin (a % 19) (Nat.mod_lt _ (by omega)) (b % 19) (Nat.mod_lt _ (by omega))]
  congr 1
  omega

/-- Witness for the amended C2 on `curve17` with `m = d = k = 1` (the
signature is `(5, 6)`, both components nonzero). -/
theorem ecdsa_roundtrip_verifies_witness :
    Nat.Prime curve17.N ∧
    curve17.iter curve17.G curve17.N = curve17.e ∧
    (curve17.ECDSA_sign 1 1 1).1 ≠ 0 ∧
    (curve17.ECDSA_sign 1 1 1).2 ≠ 0 ∧
    curve17.ECDSA_verif (curve17.exp curve17.G 1) 1 (curve17.ECDSA_sign 1 1 1) = true :=
  ⟨by decide, by decide, by decide, by decide,
    ecdsa_roundtrip_verifies curve17 1 1 1 (by decide) curve17_iter_add (by decide)
      (by decide) (by decide) (by decide) (by decide) (by decide) (by decide)⟩

/-! ### Closure of curve membership under point addition (C10) -/

/-- A second concrete curve, y² = x³ + x + 2 over F5, exhibiting the
unreduced-coordinate counterexample for C10. -/
def curve5 : ECConZp :=
  { A := 1, B := 2, G := [1, 2], p := 5, N := 7, e := [0] }

/-- C10 counterexample: `verify` accepts the unreduced point `[6, 2]`
(6 ≡ 1 mod 5) as well as `[1, 2]`, but `loi` compares raw coordinates and
takes the chord branch, whose denominator `6 - 1 = 5` is not invertible
mod 5: `pow(5, -1, 5)` raises `ValueError` (`loiOpt` returns `none`), so
the addition crashes instead of producing a point that `verify` accepts. -/
theorem ec_verify_not_closed_counterexample :
    curve5.verify [1, 2] = true ∧ curve5.verify [6, 2] = true ∧
    curve5.loiOpt [1, 2] [6, 2] = none :=
  ⟨by decide, by decide, by decide⟩

/-- A point whose coordinates are reduced field elements (or the sentinel). -/
def ECConZp.reducedPt (E : ECConZp) (P : List Int) : Prop :=
  P = E.e ∨ ∃ x y : Int, P = [x, y] ∧ 0 ≤ x ∧ x < (E.p : Int) ∧ 0 ≤ y ∧ y < (E.p : Int)

/-- Helper for the amended C10: over a prime field, for points whose
coordinates are *reduced* field elements, the point `loi` computes passes
`verify`. -/
theorem ecLoi_verify_of_reduced (E : ECConZp) (hp : E.p.Prime) (P Q : List Int)
    (hPr : E.reducedPt P) (hQr : E.reducedPt Q)
    (hPv : E.verify P = true) (hQv : E.verify Q = true) :
    E.verify (E.loi P Q) = true := by
  haveI : Fact E.p.Prime := ⟨hp⟩
  have hp0 : 0 < E.p := hp.pos
  have hpI : (0 : Int) < (E.p : Int) := by exact_mod_cast hp0
  by_cases hPe : P = E.e
  · rw [ECConZp.loi, if_pos hPe]
    exact hQv
  by_cases hQe : Q = E.e
  · rw [ECConZp.loi, if_neg hPe, if_pos hQe]
    exact hPv
  rcases hPr with h | ⟨x1, y1, rfl, hx10, hx1p, hy10, hy1p⟩
  · exact absurd h hPe
  rcases hQr with h | ⟨x2, y2, rfl, hx20, hx2p, hy20, hy2p⟩
  · exact absurd h hQe
  -- the two curve equations, in ZMod p
  have hc1K : ((y1 : ZMod E.p)) ^ 2 =
      ((x1 : ZMod E.p)) ^ 3 + (E.A : ZMod E.p) * (x1 : ZMod E.p) + (E.B : ZMod E.p) := by
    rw [ECConZp.verify, if_neg hPe] at hPv
    have h2 := of_decide_eq_true hPv
    have h3 := congrArg (fun z : Int => ((z : Int) : ZMod E.p)) h2
    simp only at h3
    push_cast at h3
    exact_mod_cast h3
  have hc2K : ((y2 : ZMod E.p)) ^ 2 =
      ((x2 : ZMod E.p)) ^ 3 + (E.A : ZMod E.p) * (x2 : ZMod E.p) + (E.B : ZMod E.p) := by
    rw [ECConZp.verify, if_neg hQe] at hQv
    have h2 := of_decide_eq_true hQv
    have h3 := congrArg (fun z : Int => ((z : Int) : ZMod E.p)) h2
    simp only at h3
    push_cast at h3
    exact_mod_cast h3
  rw [ECConZp.loi, if_neg hPe, if_neg hQe]
  by_cases hx12 : x1 = x2
  · -- same x-coordinate
    subst hx12
    have hxx : ([x1, y1] : List Int).getD 0 0 = ([x1, y2] : List Int).getD 0 0 := rfl
    rw [if_pos hxx]
    by_cases hopp : y1 = (-y2) % (E.p : Int)
    · have hoppg : ([x1, y1] : List Int).getD 1 0 =
          (-(([x1, y2] : List Int).getD 1 0)) % (E.p : Int) := hopp
      rw [if_pos hoppg, ECConZp.verify, if_pos rfl]
    · have hoppg : ¬ ([x1, y1] : List Int).getD 1 0 =
          (-(([x1, y2] : List Int).getD 1 0)) % (E.p : Int) := hopp
      rw [if_neg hoppg]
      -- the tangent denominator is invertible
      have h2y : ((2 * y1 : Int) : ZMod E.p) ≠ 0 := by
        intro h0
        apply hopp
        have h2K : (2 : ZMod E.p) * (y1 : ZMod E.p) = 0 := by
          push_cast at h0
          linear_combination h0
        have hfac : (((y1 : ZMod E.p)) - (y2 : ZMod E.p)) *
            (((y1 : ZMod E.p)) + (y2 : ZMod E.p)) = 0 := by
          linear_combination hc1K - hc2K
        have hy1my2 : ((y1 : ZMod E.p)) = -((y2 : ZMod E.p)) := by
          rcases mul_eq_zero.mp hfac with h1 | h1
          · linear_combination h2K - h1
          · linear_combination h1
        apply int_reduced_eq hy10 hy1p (Int.emod_nonneg _ (by omega))
          (Int.emod_lt_of_pos _ hpI)
        rw [intCast_emod_zmod]
        push_cast
        exact hy1my2
      have hinv2y : ((invModInt (2 * y1) E.p : Int) : ZMod E.p) = (2 * (y1 : ZMod E.p))⁻¹ := by
        rw [invModInt_cast hp (2 * y1) h2y]
        congr 1
        push_cast
        ring
      have h2yK : (2 * ((y1 : ZMod E.p))) ≠ 0 := by
        intro h0
        apply h2y
        push_cast
        rw [show (2 : ZMod E.p) * (y1 : ZMod E.p) = 0 from h0]
      have e2K : ((3 * (x1 : ZMod E.p) ^ 2 + (E.A : ZMod E.p)) * (2 * (y1 : ZMod E.p))⁻¹) *
          (2 * (y1 : ZMod E.p)) = 3 * (x1 : ZMod E.p) ^ 2 + (E.A : ZMod E.p) :=
        inv_mul_cancel_right₀ h2yK _
      -- the result of doubling lies on the curve
      show E.verify [((((3 * x1 ^ 2 + E.A) * invModInt (2 * y1) E.p % (E.p : Int)) ^ 2 -
          2 * x1) % (E.p : Int)),
          ((((3 * x1 ^ 2 + E.A) * invModInt (2 * y1) E.p % (E.p : Int)) *
            (x1 - ((((3 * x1 ^ 2 + E.A) * invModInt (2 * y1) E.p % (E.p : Int)) ^ 2 -
              2 * x1) % (E.p : Int))) - y1) % (E.p : Int))] = true
      by_cases hRe : ([((((3 * x1 ^ 2 + E.A) * invModInt (2 * y1) E.p % (E.p : Int)) ^ 2 -
          2 * x1) % (E.p : Int)),
          ((((3 * x1 ^ 2 + E.A) * invModInt (2 * y1) E.p % (E.p : Int)) *
            (x1 - ((((3 * x1 ^ 2 + E.A) * invModInt (2 * y1) E.p % (E.p : Int)) ^ 2 -
              2 * x1) % (E.p : Int))) - y1) % (E.p : Int))] : List Int) = E.e
      · rw [ECConZp.verify, if_pos hRe]
      · rw [ECConZp.verify, if_neg hRe]
        apply decide_eq_true
        simp only [List.getD_cons_zero, List.getD_cons_succ]
        apply int_emod_eq_of_zmod_eq
        push_cast
        rw [hinv2y]
        linear_combination hc1K +
          (((3 * (x1 : ZMod E.p) ^ 2 + (E.A : ZMod E.p)) * (2 * (y1 : ZMod E.p))⁻¹) ^ 2 -
            3 * (x1 : ZMod E.p)) * e2K
  · -- distinct x-coordinates: chord addition
    have hxx : ¬ ([x1, y1] : List Int).getD 0 0 = ([x2, y2] : List Int).getD 0 0 := hx12
    rw [if_neg hxx]
    have hdI : ((x2 - x1 : Int) : ZMod E.p) ≠ 0 :=
      int_nonzero_zmod hp0 hx10 hx1p hx20 hx2p hx12
    have hdK : ((x2 : ZMod E.p)) - ((x1 : ZMod E.p)) ≠ 0 := by
      intro h0
      apply hdI
      push_cast
      rw [show ((x2 : ZMod E.p)) - ((x1 : ZMod E.p)) = 0 from h0]
    have hinvd : ((invModInt (x2 - x1) E.p : Int) : ZMod E.p) =
        (((x2 : ZMod E.p)) - ((x1 : ZMod E.p)))⁻¹ := by
      rw [invModInt_cast hp (x2 - x1) hdI]
      congr 1
      push_cast
      ring
    have eLK : (((y2 : ZMod E.p) - (y1 : ZMod E.p)) *
        (((x2 : ZMod E.p)) - ((x1 : ZMod E.p)))⁻¹) * (((x2 : ZMod E.p)) - ((x1 : ZMod E.p))) =
        ((y2 : ZMod E.p)) - ((y1 : ZMod E.p)) := inv_mul_cancel_right₀ hdK _
    have hdW : (((x2 : ZMod E.p)) - ((x1 : ZMod E.p))) *
        (2 * (((y2 : ZMod E.p) - (y1 : ZMod E.p)) *
            (((x2 : ZMod E.p)) - ((x1 : ZMod E.p)))⁻¹) * (y1 : ZMod E.p) +
          (((y2 : ZMod E.p) - (y1 : ZMod E.p)) *
            (((x2 : ZMod E.p)) - ((x1 : ZMod E.p)))⁻¹) ^ 2 *
            (((x2 : ZMod E.p)) - ((x1 : ZMod E.p))) -
          ((x1 : ZMod E.p) ^ 2 + (x1 : ZMod E.p) * (x2 : ZMod E.p) + (x2 : ZMod E.p) ^ 2 +
            (E.A : ZMod E.p))) = 0 := by
      linear_combination hc2K - hc1K +
        ((((y2 : ZMod E.p) - (y1 : ZMod E.p)) *
            (((x2 : ZMod E.p)) - ((x1 : ZMod E.p)))⁻¹) * (((x2 : ZMod E.p)) - ((x1 : ZMod E.p))) +
          (y1 : ZMod E.p) + (y2 : ZMod E.p)) * eLK
    have hW := (mul_eq_zero.mp hdW).resolve_left hdK
    show E.verify [((((y2 - y1) * invModInt (x2 - x1) E.p % (E.p : Int)) ^ 2 -
        x1 - x2) % (E.p : Int)),
        ((((y2 - y1) * invModInt (x2 - x1) E.p % (E.p : Int)) *
          (x1 - ((((y2 - y1) * invModInt (x2 - x1) E.p % (E.p : Int)) ^ 2 -
            x1 - x2) % (E.p : Int))) - y1) % (E.p : Int))] = true
    by_cases hRe : ([((((y2 - y1) * invModInt (x2 - x1) E.p % (E.p : Int)) ^ 2 -
        x1 - x2) % (E.p : Int)),
        ((((y2 - y1) * invModInt (x2 - x1) E.p % (E.p : Int)) *
          (x1 - ((((y2 - y1) * invModInt (x2 - x1) E.p % (E.p : Int)) ^ 2 -
            x1 - x2) % (E.p : Int))) - y1) % (E.p : Int))] : List Int) = E.e
    · rw [ECConZp.verify, if_pos hRe]
    · rw [ECConZp.verify, if_neg hRe]
      apply decide_eq_true
      simp only [List.getD_cons_zero, List.getD_cons_succ]
      apply int_emod_eq_of_zmod_eq
      push_cast
      rw [hinvd]
      linear_combination hc1K +
        (((((y2 : ZMod E.p) - (y1 : ZMod E.p)) *
            (((x2 : ZMod E.p)) - ((x1 : ZMod E.p)))⁻¹) ^ 2 -
          (x1 : ZMod E.p) - (x2 : ZMod E.p)) - (x1 : ZMod E.p)) * hW

/-- When the modulus is prime and the base is nonzero mod `p`, Python's
`pow(a, -1, p)` does not raise: the fallible model returns exactly the
value `invModInt` computes. -/
theorem invModIntOpt_eq_some {p : Nat} (hp : p.Prime) (a : Int)
    (ha : (a : ZMod p) ≠ 0) : invModIntOpt a p = some (invModInt a p) := by
  haveI : Fact p.Prime := ⟨hp⟩
  haveI : NeZero p := ⟨hp.pos.ne'⟩
  have hp1 : (1 : Int) < (p : Int) := by exact_mod_cast hp.one_lt
  have hpred : a * (((a : ZMod p)⁻¹.val : Nat) : Int) % (p : Int) = 1 := by
    apply int_reduced_eq (Int.emod_nonneg _ (by omega)) (Int.emod_lt_of_pos _ (by omega))
      (by omega) hp1
    rw [intCast_emod_zmod]
    push_cast
    rw [ZMod.natCast_rightInverse _]
    exact mul_inv_cancel₀ ha
  have hex : ∃ z ∈ List.range p, decide (a * (z : Int) % (p : Int) = 1) = true :=
    ⟨(a : ZMod p)⁻¹.val, List.mem_range.mpr (ZMod.val_lt _), decide_eq_true hpred⟩
  obtain ⟨z, hz⟩ := Option.isSome_iff_exists.mp (List.find?_isSome.mpr hex)
  have hval : invModInt a p = ((z : Nat) : Int) := by rw [invModInt, hz]; rfl
  rw [invModIntOpt, hz, hval]
  rfl

/-- `loiOpt` agrees with `loi` whenever the inverse taken in the branch
actually reached exists. -/
theorem ECConZp.loiOpt_eq_loi (E : ECConZp) (P Q : List Int)
    (hdbl : P ≠ E.e → Q ≠ E.e → P.getD 0 0 = Q.getD 0 0 →
      ¬ P.getD 1 0 = (-(Q.getD 1 0)) % (E.p : Int) →
      invModIntOpt (2 * P.getD 1 0) E.p = some (invModInt (2 * P.getD 1 0) E.p))
    (hchord : P ≠ E.e → Q ≠ E.e → ¬ P.getD 0 0 = Q.getD 0 0 →
      invModIntOpt (Q.getD 0 0 - P.getD 0 0) E.p
        = some (invModInt (Q.getD 0 0 - P.getD 0 0) E.p)) :
    E.loiOpt P Q = some (E.loi P Q) := by
  rw [ECConZp.loiOpt, ECConZp.loi]
  by_cases hPe : P = E.e
  · rw [if_pos hPe, if_pos hPe]
  · rw [if_neg hPe, if_neg hPe]
    by_cases hQe : Q = E.e
    · rw [if_pos hQe, if_pos hQe]
    · rw [if_neg hQe, if_neg hQe]
      by_cases hx : P.getD 0 0 = Q.getD 0 0
      · rw [if_pos hx, if_pos hx]
        by_cases hy : P.getD 1 0 = (-(Q.getD 1 0)) % (E.p : Int)
        · rw [if_pos hy, if_pos hy]
        · rw [if_neg hy, if_neg hy, hdbl hPe hQe hx hy]
      · rw [if_neg hx, if_neg hx, hchord hPe hQe hx]

/-- C10 amended: over a prime field, for points whose coordinates are
*reduced* field elements (as the data model requires), point addition does
not hit the `ValueError` path — the fallible `loiOpt` returns exactly the
point `loi` computes — and curve membership as checked by `verify` is
closed under it. -/
theorem ec_verify_closed (E : ECConZp) (hp : E.p.Prime) (P Q : List Int)
    (hPr : E.reducedPt P) (hQr : E.reducedPt Q)
    (hPv : E.verify P = true) (hQv : E.verify Q = true) :
    E.loiOpt P Q = some (E.loi P Q) ∧ E.verify (E.loi P Q) = true := by
  haveI : Fact E.p.Prime := ⟨hp⟩
  have hp0 : 0 < E.p := hp.pos
  have hpI : (0 : Int) < (E.p : Int) := by exact_mod_cast hp0
  refine ⟨?_, ecLoi_verify_of_reduced E hp P Q hPr hQr hPv hQv⟩
  apply ECConZp.loiOpt_eq_loi
  · intro hPe hQe hx hy
    rcases hPr with h | ⟨x1, y1, hPform, hx10, hx1p, hy10, hy1p⟩
    · exact absurd h hPe
    rcases hQr with h | ⟨x2, y2, hQform, hx20, hx2p, hy20, hy2p⟩
    · exact absurd h hQe
    subst hPform
    subst hQform
    have hc1K : ((y1 : ZMod E.p)) ^ 2 =
        ((x1 : ZMod E.p)) ^ 3 + (E.A : ZMod E.p) * (x1 : ZMod E.p) + (E.B : ZMod E.p) := by
      rw [ECConZp.verify, if_neg hPe] at hPv
      have h2 := of_decide_eq_true hPv
      have h3 := congrArg (fun z : Int => ((z : Int) : ZMod E.p)) h2
      simp only at h3
      push_cast at h3
      exact_mod_cast h3
    have hc2K : ((y2 : ZMod E.p)) ^ 2 =
        ((x2 : ZMod E.p)) ^ 3 + (E.A : ZMod E.p) * (x2 : ZMod E.p) + (E.B : ZMod E.p) := by
      rw [ECConZp.verify, if_neg hQe] at hQv
      have h2 := of_decide_eq_true hQv
      have h3 := congrArg (fun z : Int => ((z : Int) : ZMod E.p)) h2
      simp only at h3
      push_cast at h3
      exact_mod_cast h3
    have hx12 : x1 = x2 := hx
    subst hx12
    have hopp : ¬ y1 = (-y2) % (E.p : Int) := hy
    apply invModIntOpt_eq_some hp
    show ((2 * y1 : Int) : ZMod E.p) ≠ 0
    intro h0
    apply hopp
    have h2K : (2 : ZMod E.p) * (y1 : ZMod E.p) = 0 := by
      push_cast at h0
      linear_combination h0
    have hfac : (((y1 : ZMod E.p)) - (y2 : ZMod E.p)) *
        (((y1 : ZMod E.p)) + (y2 : ZMod E.p)) = 0 := by
      linear_combination hc1K - hc2K
    have hy1my2 : ((y1 : ZMod E.p)) = -((y2 : ZMod E.p)) := by
      rcases mul_eq_zero.mp hfac with h1 | h1
      · linear_combination h2K - h1
      · linear_combination h1
    apply int_reduced_eq hy10 hy1p (Int.emod_nonneg _ (by omega))
      (Int.emod_lt_of_pos _ hpI)
    rw [intCast_emod_zmod]
    push_cast
    exact hy1my2
  · intro hPe hQe hx
    rcases hPr with h | ⟨x1, y1, hPform, hx10, hx1p, hy10, hy1p⟩
    · exact absurd h hPe
    rcases hQr with h | ⟨x2, y2, hQform, hx20, hx2p, hy20, hy2p⟩
    · exact absurd h hQe
    subst hPform
    subst hQform
    have hx12 : ¬ x1 = x2 := hx
    apply invModIntOpt_eq_some hp
    show ((x2 - x1 : Int) : ZMod E.p) ≠ 0
    exact int_nonzero_zmod hp0 hx10 hx1p hx20 hx2p hx12

/-- Witness for the amended C10 on `curve17` with P = (5,1), Q = (6,3). -/
theorem ec_verify_closed_witness :
    Nat.Prime curve17.p ∧
    curve17.verify [5, 1] = true ∧
    curve17.verify [6, 3] = true ∧
    curve17.loiOpt [5, 1] [6, 3] = some (curve17.loi [5, 1] [6, 3]) ∧
    curve17.verify (curve17.loi [5, 1] [6, 3]) = true := by
  have hPr : curve17.reducedPt [5, 1] :=
    Or.inr ⟨5, 1, rfl, by decide, by decide, by decide, by decide⟩
  have hQr : curve17.reducedPt [6, 3] :=
    Or.inr ⟨6, 3, rfl, by decide, by decide, by decide, by decide⟩
  obtain ⟨h1, h2⟩ := ec_verify_closed curve17 (by decide) [5, 1] [6, 3] hPr hQr
    (by decide) (by decide)
  exact ⟨by decide, by decide, by decide, h1, h2⟩

/-! ### Pohlig–Hellman groundwork: reduced naturals and modular powers -/

theorem nat_reduced_eq {p : Nat} (hp : 0 < p) {a b : Nat} (ha : a < p) (hb : b < p)
    (h : (a : ZMod p) = (b : ZMod p)) : a = b := by
  haveI : NeZero p := ⟨by omega⟩
  have hv := congrArg ZMod.val h
  rwa [ZMod.val_cast_of_lt ha, ZMod.val_cast_of_lt hb] at hv

theorem powMod_lt (b e : Nat) {m : Nat} (hm : 0 < m) : powMod b e m < m :=
  Nat.mod_lt _ hm

theorem powMod_cast (b e m : Nat) :
    ((powMod b e m : Nat) : ZMod m) = (b : ZMod m) ^ e := by
  rw [powMod, ZMod.natCast_mod, Nat.cast_pow]

theorem zpMul_loi_cast (p NN a b : Nat) :
    (((zpMulWithOrder p NN).loi a b : Nat) : ZMod p) = (a : ZMod p) * (b : ZMod p) := by
  show (((a * b % p : Nat)) : ZMod p) = _
  rw [ZMod.natCast_mod, Nat.cast_mul]

theorem zpMul_loi_lt (p NN : Nat) (hp : 0 < p) (a b : Nat) :
    (zpMulWithOrder p NN).loi a b < p :=
  Nat.mod_lt _ hp

theorem invMod_spec {p : Nat} (hp : p.Prime) (a : Nat) (ha : (a : ZMod p) ≠ 0) :
    a * invMod a p % p = 1 ∧ invMod a p < p := by
  haveI : Fact p.Prime := ⟨hp⟩
  haveI : NeZero p := ⟨hp.pos.ne'⟩
  have hpred : a * (a : ZMod p)⁻¹.val % p = 1 := by
    apply nat_reduced_eq hp.pos (Nat.mod_lt _ hp.pos) hp.one_lt
    rw [ZMod.natCast_mod]
    push_cast
    rw [ZMod.natCast_rightInverse _]
    exact mul_inv_cancel₀ ha
  have hex : ∃ x ∈ List.range p, decide (a * x % p = 1) = true :=
    ⟨(a : ZMod p)⁻¹.val, List.mem_range.mpr (ZMod.val_lt _), decide_eq_true hpred⟩
  obtain ⟨z, hz⟩ := Option.isSome_iff_exists.mp (List.find?_isSome.mpr hex)
  have hzm := List.mem_of_find?_eq_some hz
  have hzp0 := List.find?_some hz
  simp only [decide_eq_true_eq] at hzp0
  have hval : invMod a p = z := by rw [invMod, hz]; rfl
  rw [hval]
  exact ⟨hzp0, List.mem_range.mp hzm⟩

theorem invMod_cast {p : Nat} (hp : p.Prime) (a : Nat) (ha : (a : ZMod p) ≠ 0) :
    ((invMod a p : Nat) : ZMod p) = (a : ZMod p)⁻¹ := by
  obtain ⟨h1, _⟩ := invMod_spec hp a ha
  have hmul : (a : ZMod p) * ((invMod a p : Nat) : ZMod p) = 1 := by
    calc (a : ZMod p) * ((invMod a p : Nat) : ZMod p)
        = ((a * invMod a p : Nat) : ZMod p) := by push_cast; ring
      _ = ((a * invMod a p % p : Nat) : ZMod p) := (ZMod.natCast_mod _ _).symm
      _ = ((1 : Nat) : ZMod p) := by rw [h1]
      _ = 1 := by push_cast; rfl
  have hu : IsUnit (a : ZMod p) :=
    ⟨⟨(a : ZMod p), ((invMod a p : Nat) : ZMod p), hmul, by rw [mul_comm]; exact hmul⟩, rfl⟩
  calc ((invMod a p : Nat) : ZMod p)
      = (a : ZMod p)⁻¹ * ((a : ZMod p) * ((invMod a p : Nat) : ZMod p)) := by
        rw [← mul_assoc, ZMod.inv_mul_of_unit _ hu, one_mul]
    _ = (a : ZMod p)⁻¹ := by rw [hmul, mul_one]

theorem zmod_ne_zero_of_order {p : Nat} (hp : p.Prime) {g N : Nat}
    (hord : orderOf (g : ZMod p) = N) (hN : 0 < N) : (g : ZMod p) ≠ 0 := by
  haveI : Fact p.Prime := ⟨hp⟩
  intro h0
  have hpowN : (g : ZMod p) ^ N = 1 := hord ▸ pow_orderOf_eq_one _
  rw [h0, zero_pow hN.ne'] at hpowN
  exact zero_ne_one hpowN

theorem orderOf_pow_zmod {p : Nat} (hp : p.Prime) {g N : Nat} (s : Nat) (hs : s ≠ 0)
    (hord : orderOf (g : ZMod p) = N) (hN : 0 < N) :
    orderOf ((g : ZMod p) ^ s) = N / Nat.gcd N s := by
  haveI : Fact p.Prime := ⟨hp⟩
  have hpowN : (g : ZMod p) ^ N = 1 := hord ▸ pow_orderOf_eq_one _
  have hmul : (g : ZMod p) * (g : ZMod p) ^ (N - 1) = 1 := by
    rw [← pow_succ']
    have hN1 : N - 1 + 1 = N := by omega
    rw [hN1, hpowN]
  have hu : IsUnit (g : ZMod p) :=
    ⟨⟨(g : ZMod p), (g : ZMod p) ^ (N - 1), hmul, by rw [mul_comm]; exact hmul⟩, rfl⟩
  obtain ⟨u, hu_eq⟩ := hu
  have hou : orderOf u = N := by rw [← orderOf_units, hu_eq, hord]
  have hps : ((g : ZMod p) ^ s) = ((u ^ s : (ZMod p)ˣ) : ZMod p) := by
    rw [Units.val_pow_eq_pow_val, hu_eq]
  rw [hps, orderOf_units, orderOf_pow' u hs, hou]

/-! ### Correctness of `ShanksAlgorithm` -/

theorem find?_assoc_some : ∀ (l : List (Nat × Nat)) (v j : Nat),
    (v, j) ∈ l → (∀ pr ∈ l, pr.1 = v → pr.2 = j) →
    (l.find? fun pr => pr.1 = v).map Prod.snd = some j := by
  intro l
  induction l with
  | nil => intro v j hm _; simp at hm
  | cons a t ih =>
    intro v j hm hu
    by_cases ha : a.1 = v
    · have hfa : List.find? (fun pr : Nat × Nat => decide (pr.1 = v)) (a :: t) =
          some a := List.find?_cons_of_pos t (decide_eq_true ha)
      rw [hfa]
      show some a.2 = some j
      exact congrArg some (hu a (List.mem_cons_self a t) ha)
    · have hfa : List.find? (fun pr : Nat × Nat => decide (pr.1 = v)) (a :: t) =
          List.find? (fun pr : Nat × Nat => decide (pr.1 = v)) t :=
        List.find?_cons_of_neg t (by simp only [decide_eq_true_eq]; exact ha)
      rw [hfa]
      apply ih v j
      · rcases List.mem_cons.mp hm with h1 | h1
        · have ha1 : a.1 = v := congrArg Prod.fst h1.symm
          exact absurd ha1 ha
        · exact h1
      · intro pr hpr hpv
        exact hu pr (List.mem_cons_of_mem _ hpr) hpv

theorem tableFind_some (tab : List (Nat × Nat)) (v j : Nat)
    (hm : (v, j) ∈ tab) (hu : ∀ pr ∈ tab, pr.1 = v → pr.2 = j) :
    tableFind tab v = some j :=
  find?_assoc_some tab.reverse v j (List.mem_reverse.mpr hm)
    (fun pr hpr => hu pr (List.mem_reverse.mp hpr))

theorem tableFind_none (tab : List (Nat × Nat)) (v : Nat)
    (h : ∀ pr ∈ tab, pr.1 ≠ v) : tableFind tab v = none := by
  have hf : tab.reverse.find? (fun pr => pr.1 = v) = none :=
    List.find?_eq_none.mpr (fun pr hpr => by
      simp only [decide_eq_true_eq]
      exact h pr (List.mem_reverse.mp hpr))
  rw [tableFind, hf]
  rfl

theorem shanksTable_entries {p q : Nat} (hp : 1 < p) (y m : Nat) :
    ∀ pr ∈ shanksTable (zpMulWithOrder p q) y m,
      pr = (powMod y pr.2 p, pr.2) ∧ pr.2 < m := by
  intro pr hpr
  rw [shanksTable] at hpr
  obtain ⟨j, hjr, hje⟩ := List.mem_map.mp hpr
  have hj : j < m := List.mem_range.mp hjr
  have hexp : (zpMulWithOrder p q).exp y j = powMod y j p := by
    rw [zpMul_exp p hp]; rfl
  constructor
  · rw [← hje, hexp]
  · rw [← hje]; exact hj

theorem shanksTable_mem {p q : Nat} (hp : 1 < p) (y m j : Nat) (hj : j < m) :
    (powMod y j p, j) ∈ shanksTable (zpMulWithOrder p q) y m := by
  rw [shanksTable]
  refine List.mem_map.mpr ⟨j, List.mem_range.mpr hj, ?_⟩
  rw [zpMul_exp p hp]; rfl

theorem zmod_pow_inj {p q : Nat} (y : Nat) (hyord : orderOf (y : ZMod p) = q) :
    ∀ j1 < q, ∀ j2 < q, (y : ZMod p) ^ j1 = (y : ZMod p) ^ j2 → j1 = j2 := by
  intro j1 h1 j2 h2 he
  exact pow_injOn_Iio_orderOf (by rw [hyord]; exact Set.mem_Iio.mpr h1)
    (by rw [hyord]; exact Set.mem_Iio.mpr h2) he

theorem shanksTable_hit {p q : Nat} (hp : p.Prime) (y m D : Nat)
    (hyord : orderOf (y : ZMod p) = q) (hmq : m ≤ q) (hD : D < m) :
    tableFind (shanksTable (zpMulWithOrder p q) y m) (powMod y D p) = some D := by
  apply tableFind_some
  · exact shanksTable_mem hp.one_lt y m D hD
  · intro pr hpr hpv
    obtain ⟨hpe, hplt⟩ := shanksTable_entries hp.one_lt y m pr hpr
    have h2 : pr.1 = powMod y pr.2 p := congrArg Prod.fst hpe
    have h1 : powMod y pr.2 p = powMod y D p := by rw [← h2]; exact hpv
    have hc : (y : ZMod p) ^ pr.2 = (y : ZMod p) ^ D := by
      rw [← powMod_cast y pr.2 p, ← powMod_cast y D p, h1]
    exact zmod_pow_inj y hyord pr.2 (lt_of_lt_of_le hplt hmq) D
      (lt_of_lt_of_le hD hmq) hc

theorem shanksTable_miss {p q : Nat} (hp : p.Prime) (y m D : Nat)
    (hyord : orderOf (y : ZMod p) = q) (hmq : m ≤ q) (hDm : m ≤ D) (hDq : D < q) :
    tableFind (shanksTable (zpMulWithOrder p q) y m) (powMod y D p) = none := by
  apply tableFind_none
  intro pr hpr hcon
  obtain ⟨hpe, hplt⟩ := shanksTable_entries hp.one_lt y m pr hpr
  have h2 : pr.1 = powMod y pr.2 p := congrArg Prod.fst hpe
  have h1 : powMod y pr.2 p = powMod y D p := by rw [← h2]; exact hcon
  have hc : (y : ZMod p) ^ pr.2 = (y : ZMod p) ^ D := by
    rw [← powMod_cast y pr.2 p, ← powMod_cast y D p, h1]
  have := zmod_pow_inj y hyord pr.2 (lt_of_lt_of_le hplt hmq) D hDq hc
  omega

theorem shanks_step {p q : Nat} (hp : p.Prime) (y m D : Nat)
    (hyord : orderOf (y : ZMod p) = q) (hmD : m ≤ D) (hmq : m ≤ q) :
    (zpMulWithOrder p q).loi (powMod y D p) ((zpMulWithOrder p q).exp y (q - m)) =
      powMod y (D - m) p := by
  apply nat_reduced_eq hp.pos (zpMul_loi_lt p q hp.pos _ _) (powMod_lt _ _ hp.pos)
  rw [zpMul_loi_cast, powMod_cast, powMod_cast, zpMul_exp p hp.one_lt,
    ZMod.natCast_mod, Nat.cast_pow]
  have hyq : (y : ZMod p) ^ q = 1 := hyord ▸ pow_orderOf_eq_one _
  rw [← pow_add]
  have he : D + (q - m) = (D - m) + q := by omega
  rw [he, pow_add, hyq, mul_one]

theorem shanksLoop_finds {p q : Nat} (hp : p.Prime) (y d m : Nat)
    (hyord : orderOf (y : ZMod p) = q) (hd : d < q)
    (hm1 : 1 ≤ m) (hmq : m ≤ q) (hmm : q ≤ m * m) :
    ∀ r, r ≤ m → m - r ≤ d / m →
      shanksLoop (zpMulWithOrder p q) ((zpMulWithOrder p q).exp y (q - m))
        (shanksTable (zpMulWithOrder p q) y m) m (powMod y (d - (m - r) * m) p) r =
        some d := by
  have hdm : d / m < m := (Nat.div_lt_iff_lt_mul (by omega)).mpr (lt_of_lt_of_le hd hmm)
  have hdam : m * (d / m) + d % m = d := Nat.div_add_mod d m
  intro r
  induction r with
  | zero => intro _ hi; omega
  | succ r ih =>
    intro hrm hi
    simp only [shanksLoop]
    by_cases hieq : m - (r + 1) = d / m
    · have harg : d - (m - (r + 1)) * m = d % m := by
        have hcm : (d / m) * m = m * (d / m) := Nat.mul_comm _ _
        rw [hieq]
        omega
      rw [harg, shanksTable_hit hp y m (d % m) hyord hmq (Nat.mod_lt _ (by omega))]
      show some ((m - (r + 1)) * m + d % m) = some d
      refine congrArg some ?_
      have hcm : (d / m) * m = m * (d / m) := Nat.mul_comm _ _
      rw [hieq]
      omega
    · have hlt : m - (r + 1) < d / m := by omega
      have hDm : m ≤ d - (m - (r + 1)) * m := by
        have h3 : m * (m - (r + 1) + 1) = m * (m - (r + 1)) + m := by ring
        have h2 : m * (m - (r + 1) + 1) ≤ m * (d / m) :=
          Nat.mul_le_mul_left m (by omega)
        have h4 : (m - (r + 1)) * m = m * (m - (r + 1)) := Nat.mul_comm _ _
        omega
      have hDq : d - (m - (r + 1)) * m < q := by omega
      rw [shanksTable_miss hp y m (d - (m - (r + 1)) * m) hyord hmq hDm hDq]
      show shanksLoop (zpMulWithOrder p q) ((zpMulWithOrder p q).exp y (q - m))
        (shanksTable (zpMulWithOrder p q) y m) m
        ((zpMulWithOrder p q).loi (powMod y (d - (m - (r + 1)) * m) p)
          ((zpMulWithOrder p q).exp y (q - m))) r = some d
      rw [shanks_step hp y m (d - (m - (r + 1)) * m) hyord hDm hmq]
      have harg2 : d - (m - (r + 1)) * m - m = d - (m - r) * m := by
        have h5 : (m - r) * m = (m - (r + 1)) * m + m := by
          have : m - r = (m - (r + 1)) + 1 := by omega
          rw [this]; ring
        omega
      rw [harg2]
      exact ih (by omega) (by omega)

theorem ShanksAlgorithm_finds {p q : Nat} (hp : p.Prime) (y hh d : Nat)
    (hyord : orderOf (y : ZMod p) = q) (hd : d < q)
    (hhlt : hh < p) (hhcast : (hh : ZMod p) = (y : ZMod p) ^ d) :
    (zpMulWithOrder p q).ShanksAlgorithm y hh = some d := by
  obtain ⟨hmm, hmq, -⟩ := ceilSqrt_spec q
  have hm1 : 1 ≤ ceilSqrt q := by
    rcases Nat.eq_zero_or_pos (ceilSqrt q) with h0 | h1
    · rw [h0] at hmm; omega
    · exact h1
  have hhh : hh = powMod y d p := by
    apply nat_reduced_eq hp.pos hhlt (powMod_lt _ _ hp.pos)
    rw [powMod_cast]; exact hhcast
  have hkey := shanksLoop_finds hp y d (ceilSqrt q) hyord hd hm1 hmq hmm
    (ceilSqrt q) le_rfl (by rw [Nat.sub_self]; exact Nat.zero_le _)
  have harg : d - (ceilSqrt q - ceilSqrt q) * ceilSqrt q = d := by
    rw [Nat.sub_self, Nat.zero_mul, Nat.sub_zero]
  rw [harg] at hkey
  show shanksLoop (zpMulWithOrder p q) ((zpMulWithOrder p q).exp y (q - ceilSqrt q))
    (shanksTable (zpMulWithOrder p q) y (ceilSqrt q)) (ceilSqrt q) hh (ceilSqrt q) =
    some d
  rw [hhh]
  exact hkey

/-! ### Correctness of `DLinGroupofPrimePowerOrder` -/

theorem zpMulWithOrder_p (p NN : Nat) : (zpMulWithOrder p NN).p = p := rfl

theorem zpMulWithOrder_N (p NN : Nat) : (zpMulWithOrder p NN).N = NN := rfl

theorem DLin_y_order {p q n : Nat} (hp : p.Prime) (hq : q.Prime) (hn : 1 ≤ n)
    {g : Nat} (hord : orderOf (g : ZMod p) = q ^ n) :
    orderOf ((g : ZMod p) ^ q ^ (n - 1)) = q := by
  have hqn : 0 < q ^ n := pow_pos hq.pos n
  have h := orderOf_pow_zmod hp (q ^ (n - 1)) (pow_pos hq.pos (n - 1)).ne' hord hqn
  have h1 : n - (n - 1) = 1 := by omega
  rw [h, Nat.gcd_eq_right (pow_dvd_pow q (by omega)), Nat.pow_div (by omega) hq.pos,
    h1, pow_one]

theorem DLinLoop_finds {p q n X g : Nat} (hp : p.Prime) (hq : q.Prime) (hn : 1 ≤ n)
    (hord : orderOf (g : ZMod p) = q ^ n) (hX : X < q ^ n) (hh : Nat) (hhlt : hh < p)
    (hhcast : (hh : ZMod p) = (g : ZMod p) ^ X) :
    ∀ r, r ≤ n →
      DLinLoop (zpMulWithOrder p (q ^ n)) g hh q n (powMod g (q ^ (n - 1)) p) r
        (X % q ^ (n - r)) = some (X % q ^ n) := by
  haveI : Fact p.Prime := ⟨hp⟩
  have hg0 : (g : ZMod p) ≠ 0 := zmod_ne_zero_of_order hp hord (pow_pos hq.pos n)
  have hyord : orderOf (((powMod g (q ^ (n - 1)) p : Nat)) : ZMod p) = q := by
    rw [powMod_cast]
    exact DLin_y_order hp hq hn hord
  intro r
  induction r with
  | zero =>
    intro _
    rfl
  | succ r ih =>
    intro hrn
    simp only [DLinLoop, zpMulWithOrder_p, zpMulWithOrder_N]
    have hj_exp : n - (n - (r + 1)) - 1 = r := by omega
    rw [hj_exp]
    have hpow_r : powMod q r (q ^ n) = q ^ r :=
      Nat.mod_eq_of_lt (Nat.pow_lt_pow_right hq.one_lt (by omega))
    have hpow_j : powMod q (n - (r + 1)) (q ^ n) = q ^ (n - (r + 1)) :=
      Nat.mod_eq_of_lt (Nat.pow_lt_pow_right hq.one_lt (by omega))
    rw [hpow_r, hpow_j]
    have hgi0 : ((powMod g (X % q ^ (n - (r + 1))) p : Nat) : ZMod p) ≠ 0 := by
      rw [powMod_cast]; exact pow_ne_zero _ hg0
    have hinvc : ((invMod (powMod g (X % q ^ (n - (r + 1))) p) p : Nat) : ZMod p)
        = ((g : ZMod p) ^ (X % q ^ (n - (r + 1))))⁻¹ := by
      rw [invMod_cast hp _ hgi0, powMod_cast]
    have hXi2 : X - X % q ^ (n - (r + 1)) = q ^ (n - (r + 1)) * (X / q ^ (n - (r + 1))) := by
      have hda := Nat.div_add_mod X (q ^ (n - (r + 1)))
      omega
    have hXi : (g : ZMod p) ^ X * ((g : ZMod p) ^ (X % q ^ (n - (r + 1))))⁻¹
        = (g : ZMod p) ^ (X - X % q ^ (n - (r + 1))) := by
      have hsplit : (g : ZMod p) ^ X
          = (g : ZMod p) ^ (X - X % q ^ (n - (r + 1))) *
            (g : ZMod p) ^ (X % q ^ (n - (r + 1))) := by
        rw [← pow_add]
        congr 1
        have := Nat.mod_le X (q ^ (n - (r + 1)))
        omega
      rw [hsplit, mul_assoc, mul_inv_cancel₀ (pow_ne_zero _ hg0), mul_one]
    have hj_r : n - (r + 1) + r = n - 1 := by omega
    have hexpL : (X - X % q ^ (n - (r + 1))) * q ^ r
        = q ^ (n - 1) * (X / q ^ (n - (r + 1))) := by
      rw [hXi2, mul_comm (q ^ (n - (r + 1))) (X / q ^ (n - (r + 1))), mul_assoc,
        ← pow_add, hj_r, mul_comm]
    have hcast : ((powMod (hh * invMod (powMod g (X % q ^ (n - (r + 1))) p) p)
          (q ^ r) p : Nat) : ZMod p)
        = ((powMod g (q ^ (n - 1)) p : Nat) : ZMod p) ^ (X / q ^ (n - (r + 1)) % q) := by
      rw [powMod_cast, Nat.cast_mul, hhcast, hinvc, hXi, ← pow_mul, hexpL, pow_mul,
        powMod_cast]
      have hYord : orderOf ((g : ZMod p) ^ q ^ (n - 1)) = q := DLin_y_order hp hq hn hord
      conv_lhs => rw [← pow_mod_orderOf]
      rw [hYord]
    have hdlt : X / q ^ (n - (r + 1)) % q < q := Nat.mod_lt _ hq.pos
    have hshanks := ShanksAlgorithm_finds hp (powMod g (q ^ (n - 1)) p)
      (powMod (hh * invMod (powMod g (X % q ^ (n - (r + 1))) p) p) (q ^ r) p)
      (X / q ^ (n - (r + 1)) % q) hyord hdlt (powMod_lt _ _ hp.pos) hcast
    rw [hshanks]
    show DLinLoop (zpMulWithOrder p (q ^ n)) g hh q n (powMod g (q ^ (n - 1)) p) r
      (X % q ^ (n - (r + 1)) + X / q ^ (n - (r + 1)) % q * q ^ (n - (r + 1)))
      = some (X % q ^ n)
    have hnext : X % q ^ (n - (r + 1)) + X / q ^ (n - (r + 1)) % q * q ^ (n - (r + 1))
        = X % q ^ (n - r) := by
      have h1 : n - (r + 1) + 1 = n - r := by omega
      have h2 := @Nat.mod_pow_succ X q (n - (r + 1))
      rw [h1] at h2
      have h3 : X / q ^ (n - (r + 1)) % q * q ^ (n - (r + 1))
          = q ^ (n - (r + 1)) * (X / q ^ (n - (r + 1)) % q) := Nat.mul_comm _ _
      omega
    rw [hnext]
    exact ih (by omega)

theorem DLin_finds {p q n X g : Nat} (hp : p.Prime) (hq : q.Prime) (hn : 1 ≤ n)
    (hord : orderOf (g : ZMod p) = q ^ n) (hX : X < q ^ n) (hh : Nat) (hhlt : hh < p)
    (hhcast : (hh : ZMod p) = (g : ZMod p) ^ X) :
    (zpMulWithOrder p (q ^ n)).DLinGroupofPrimePowerOrder g hh q n = some X := by
  have hy_exp : powMod q (n - 1) (q ^ n) = q ^ (n - 1) :=
    Nat.mod_eq_of_lt (Nat.pow_lt_pow_right hq.one_lt (by omega))
  have hkey := DLinLoop_finds hp hq hn hord hX hh hhlt hhcast n le_rfl
  have h0 : X % q ^ (n - n) = 0 := by
    have hnn : n - n = 0 := by omega
    rw [hnn, pow_zero, Nat.mod_one]
  rw [h0, Nat.mod_eq_of_lt hX] at hkey
  show DLinLoop (zpMulWithOrder p (q ^ n)) g hh q n
    (powMod g (powMod q (n - 1) (q ^ n)) p) n 0 = some X
  rw [hy_exp]
  exact hkey

/-! ### Correctness of `gcd`, `bezout`, `inverse` and `chineseRemainder` -/

theorem gcdU_eq_gcd : ∀ b a, gcdU a b = Nat.gcd a b := by
  intro b
  induction b using Nat.strong_induction_on with
  | _ b ih =>
    intro a
    by_cases hb : b = 0
    · subst hb
      rw [gcdU, dif_pos rfl, Nat.gcd_zero_right]
    · rw [gcdU, dif_neg hb, ih (a % b) (Nat.mod_lt _ (Nat.pos_of_ne_zero hb)) b,
        Nat.gcd_comm b (a % b), ← Nat.gcd_rec b a, Nat.gcd_comm b a]

theorem bezoutLoop_spec : ∀ (b a : Nat) (u0 u1 v0 v1 A B : Int),
    u0 * A + v0 * B = (a : Int) → u1 * A + v1 * B = (b : Int) →
    (bezoutLoop a b u0 u1 v0 v1).1 = Nat.gcd a b ∧
    ((bezoutLoop a b u0 u1 v0 v1).2.1 * A + (bezoutLoop a b u0 u1 v0 v1).2.2 * B
      = ((Nat.gcd a b : Nat) : Int)) := by
  intro b
  induction b using Nat.strong_induction_on with
  | _ b ih =>
    intro a u0 u1 v0 v1 A B h0 h1
    by_cases hb : b = 0
    · subst hb
      have hred : bezoutLoop a 0 u0 u1 v0 v1 = (a, u0, v0) := by
        rw [bezoutLoop]
        rfl
      rw [hred, Nat.gcd_zero_right]
      exact ⟨rfl, h0⟩
    · have hbpos : 0 < b := Nat.pos_of_ne_zero hb
      have hred : bezoutLoop a b u0 u1 v0 v1
          = bezoutLoop b (a % b) u1 (u0 - (a / b : Nat) * u1) v1
              (v0 - (a / b : Nat) * v1) := by
        rw [bezoutLoop, dif_neg hb]
      have hmod : ((a % b : Nat) : Int) = (a : Int) - ((a / b : Nat) : Int) * (b : Int) := by
        have hdm : b * (a / b) + a % b = a := Nat.div_add_mod a b
        have hc2 : (b : Int) * ((a / b : Nat) : Int) + ((a % b : Nat) : Int) = (a : Int) := by
          rw [← Nat.cast_mul, ← Nat.cast_add, hdm]
        linarith
      have h1' : (u0 - (a / b : Nat) * u1) * A + (v0 - (a / b : Nat) * v1) * B
          = ((a % b : Nat) : Int) := by
        rw [hmod]
        linear_combination h0 - ((a / b : Nat) : Int) * h1
      obtain ⟨hg, hbez⟩ := ih (a % b) (Nat.mod_lt _ hbpos) b u1
        (u0 - (a / b : Nat) * u1) v1 (v0 - (a / b : Nat) * v1) A B h1 h1'
      have hgcd : Nat.gcd b (a % b) = Nat.gcd a b := by
        rw [Nat.gcd_comm b (a % b), ← Nat.gcd_rec b a, Nat.gcd_comm b a]
      rw [hred]
      exact ⟨by rw [hg, hgcd], by rw [hbez, hgcd]⟩

theorem inverseU_inv {x n : Nat} (hn : 0 < n) (hco : Nat.gcd x n = 1) :
    x * inverseU x n ≡ 1 [MOD n] := by
  obtain ⟨-, hbez⟩ := bezoutLoop_spec n x 1 0 0 1 (x : Int) (n : Int)
    (by ring) (by ring)
  have hbb : bezout x n = bezoutLoop x n 1 0 0 1 := rfl
  rw [← hbb, hco] at hbez
  have hn0 : ((n : Nat) : Int) ≠ 0 := Int.natCast_ne_zero.mpr hn.ne'
  have htoNat : ((inverseU x n : Nat) : Int) = (bezout x n).2.1 % (n : Int) := by
    simp only [inverseU]
    exact Int.toNat_of_nonneg (Int.emod_nonneg _ hn0)
  have hmod : ((x : Int) * ((inverseU x n : Nat) : Int)) % (n : Int) = 1 % (n : Int) := by
    rw [htoNat]
    have h1 : Int.ModEq (n : Int) ((bezout x n).2.1 % (n : Int)) ((bezout x n).2.1) :=
      Int.emod_emod_of_dvd _ dvd_rfl
    have h2 : Int.ModEq (n : Int) ((x : Int) * (bezout x n).2.1) 1 := by
      refine Int.ModEq.symm (Int.modEq_iff_dvd.mpr ⟨-(bezout x n).2.2, ?_⟩)
      have hb2 := hbez
      push_cast at hb2
      linear_combination hb2
    exact ((Int.ModEq.mul_left (x : Int) h1).trans h2)
  show x * inverseU x n % n = 1 % n
  have hint : ((x * inverseU x n % n : Nat) : Int) = ((1 % n : Nat) : Int) := by
    push_cast
    exact hmod
  exact Nat.cast_inj.mp hint

theorem primalityList_of_pairwise : ∀ l : List Nat, l.Pairwise Nat.Coprime →
    primalityList l = true := by
  intro l hl
  induction l with
  | nil => rfl
  | cons a t ih =>
    rw [primalityList, Bool.and_eq_true]
    obtain ⟨hhead, htail⟩ := List.pairwise_cons.mp hl
    refine ⟨?_, ih htail⟩
    rw [List.all_eq_true]
    intro b hb
    have hco := hhead b hb
    rw [gcdU_eq_gcd]
    exact decide_eq_true hco

theorem coprime_list_prod {a : Nat} : ∀ l : List Nat, (∀ b ∈ l, Nat.Coprime a b) →
    Nat.Coprime a l.prod := by
  intro l
  induction l with
  | nil => intro _; exact Nat.coprime_one_right a
  | cons c t ih =>
    intro h
    rw [List.prod_cons]
    exact Nat.Coprime.mul_right (h c (List.mem_cons_self c t))
      (ih fun b hb => h b (List.mem_cons_of_mem _ hb))

theorem coprime_div_prod : ∀ l : List Nat, (∀ mm ∈ l, 0 < mm) → l.Pairwise Nat.Coprime →
    ∀ mm ∈ l, Nat.Coprime mm (l.prod / mm) := by
  intro l
  induction l with
  | nil => intro _ _ mm hmm; simp at hmm
  | cons a t ih =>
    intro hpos hcp mm hmm
    obtain ⟨hhead, htail⟩ := List.pairwise_cons.mp hcp
    rcases List.mem_cons.mp hmm with rfl | hm
    · rw [List.prod_cons, Nat.mul_div_cancel_left _ (hpos mm (List.mem_cons_self mm t))]
      exact coprime_list_prod t hhead
    · have hmdvd : mm ∣ t.prod := List.dvd_prod hm
      have hprod : (a :: t).prod / mm = a * (t.prod / mm) := by
        rw [List.prod_cons, Nat.mul_div_assoc a hmdvd]
      rw [hprod]
      exact Nat.Coprime.mul_right ((hhead mm hm).symm)
        (ih (fun y hy => hpos y (List.mem_cons_of_mem _ hy)) htail mm hm)

theorem pairwise_mul_dvd : ∀ (l : List Nat) (P : Nat), l.prod ∣ P →
    l.Pairwise Nat.Coprime → l.Pairwise (fun a b => a * b ∣ P) := by
  intro l
  induction l with
  | nil => intro P _ _; exact List.Pairwise.nil
  | cons a t ih =>
    intro P hdvd hcp
    obtain ⟨hhead, htail⟩ := List.pairwise_cons.mp hcp
    rw [List.prod_cons] at hdvd
    refine List.pairwise_cons.mpr ⟨?_, ?_⟩
    · intro b hb
      exact dvd_trans (mul_dvd_mul_left a (List.dvd_prod hb)) hdvd
    · exact ih P (dvd_trans (dvd_mul_left t.prod a) hdvd) htail

theorem dvd_div_of_mul_dvd_nat {h m NN : Nat} (hm : 0 < m) (hdvd : h * m ∣ NN) :
    h ∣ NN / m := by
  obtain ⟨c, hc⟩ := hdvd
  refine ⟨c, ?_⟩
  rw [hc, Nat.mul_comm h m, Nat.mul_assoc, Nat.mul_div_cancel_left _ hm]

theorem crt_sum_mod (x NN : Nat) : ∀ l : List Nat, (∀ mm ∈ l, 0 < mm) →
    l.Pairwise (fun a b => a * b ∣ NN) →
    (∀ mm ∈ l, NN / mm * inverseU (NN / mm) mm ≡ 1 [MOD mm]) →
    ∀ mm ∈ l,
      (l.map fun m2 => x % m2 * (NN / m2) * inverseU (NN / m2) m2).sum ≡ x [MOD mm] := by
  intro l
  induction l with
  | nil => intro _ _ _ mm hmm; simp at hmm
  | cons a t ih =>
    intro hpos hpair hinv mm hmm
    rw [List.map_cons, List.sum_cons]
    obtain ⟨hhead, htail⟩ := List.pairwise_cons.mp hpair
    rcases List.mem_cons.mp hmm with rfl | hm
    · have hterm : x % mm * (NN / mm) * inverseU (NN / mm) mm ≡ x [MOD mm] := by
        calc x % mm * (NN / mm) * inverseU (NN / mm) mm
            = x % mm * (NN / mm * inverseU (NN / mm) mm) := by ring
          _ ≡ x % mm * 1 [MOD mm] :=
            Nat.ModEq.mul_left _ (hinv mm (List.mem_cons_self mm t))
          _ = x % mm := by ring
          _ ≡ x [MOD mm] := Nat.mod_modEq x mm
      have hrest : (t.map fun m2 =>
          x % m2 * (NN / m2) * inverseU (NN / m2) m2).sum ≡ 0 [MOD mm] := by
        refine Nat.modEq_zero_iff_dvd.mpr (List.dvd_sum ?_)
        intro y hy
        obtain ⟨m2, hm2, hm2e⟩ := List.mem_map.mp hy
        have h2 : mm ∣ NN / m2 :=
          dvd_div_of_mul_dvd_nat (hpos m2 (List.mem_cons_of_mem _ hm2)) (hhead m2 hm2)
        rw [← hm2e]
        exact Dvd.dvd.mul_right (dvd_mul_of_dvd_right h2 _) _
      have hadd := Nat.ModEq.add hterm hrest
      simpa using hadd
    · have hterm0 : x % a * (NN / a) * inverseU (NN / a) a ≡ 0 [MOD mm] := by
        have h2 : mm ∣ NN / a := by
          refine dvd_div_of_mul_dvd_nat (hpos a (List.mem_cons_self a t)) ?_
          rw [Nat.mul_comm]
          exact hhead mm hm
        exact Nat.modEq_zero_iff_dvd.mpr
          (Dvd.dvd.mul_right (dvd_mul_of_dvd_right h2 _) _)
      have hrest := ih (fun y hy => hpos y (List.mem_cons_of_mem _ hy)) htail
        (fun y hy => hinv y (List.mem_cons_of_mem _ hy)) mm hm
      have hadd := Nat.ModEq.add hterm0 hrest
      simpa using hadd

theorem modEq_list_prod (S x : Nat) : ∀ l : List Nat, l.Pairwise Nat.Coprime →
    (∀ mm ∈ l, S ≡ x [MOD mm]) → S ≡ x [MOD l.prod] := by
  intro l
  induction l with
  | nil => intro _ _; exact Nat.modEq_one
  | cons a t ih =>
    intro hcp hall
    obtain ⟨hhead, htail⟩ := List.pairwise_cons.mp hcp
    rw [List.prod_cons]
    exact (Nat.modEq_and_modEq_iff_modEq_mul (coprime_list_prod t hhead)).mp
      ⟨hall a (List.mem_cons_self a t),
        ih htail fun y hy => hall y (List.mem_cons_of_mem _ hy)⟩

theorem crt_foldl_sum (NN : Nat) : ∀ (l : List (Nat × Nat)) (init : Nat),
    l.foldl (fun x ij => x + ij.1 * (NN / ij.2) * inverseU (NN / ij.2) ij.2) init
      = init + (l.map fun ij => ij.1 * (NN / ij.2) * inverseU (NN / ij.2) ij.2).sum := by
  intro l
  induction l with
  | nil => intro init; simp
  | cons a t ih =>
    intro init
    rw [List.foldl_cons, ih, List.map_cons, List.sum_cons]
    omega

theorem zip_map_self {β : Type} (f : Nat → β) : ∀ l : List Nat,
    (l.map f).zip l = l.map fun a => (f a, a) := by
  intro l
  induction l with
  | nil => rfl
  | cons a t ih => rw [List.map_cons, List.map_cons, List.zip_cons_cons, ih]

theorem crt_map_map (x NN : Nat) (mods : List Nat) :
    ((mods.map fun a => (x % a, a)).map fun ij =>
        ij.1 * (NN / ij.2) * inverseU (NN / ij.2) ij.2)
      = mods.map fun m2 => x % m2 * (NN / m2) * inverseU (NN / m2) m2 := by
  induction mods with
  | nil => rfl
  | cons a t ih => rw [List.map_cons, List.map_cons, List.map_cons, ih]

theorem chineseRemainder_correct (x : Nat) (mods : List Nat)
    (hpos : ∀ mm ∈ mods, 0 < mm) (hcp : mods.Pairwise Nat.Coprime) :
    chineseRemainder (mods.map fun mm => x % mm) mods = some (x % mods.prod) := by
  have hlen : (mods.map fun mm => x % mm).length = mods.length := List.length_map _ _
  have hprim : primalityList mods = true := primalityList_of_pairwise mods hcp
  simp only [chineseRemainder]
  rw [if_neg (not_ne_iff.mpr hlen), if_neg (not_not_intro hprim),
    zip_map_self (fun mm => x % mm) mods, crt_foldl_sum, crt_map_map, Nat.zero_add]
  have hfold : mods.foldl (· * ·) 1 = mods.prod := List.prod_eq_foldl.symm
  rw [hfold]
  have hinv : ∀ mm ∈ mods, mods.prod / mm * inverseU (mods.prod / mm) mm ≡ 1 [MOD mm] := by
    intro mm hmm
    exact inverseU_inv (hpos mm hmm) (coprime_div_prod mods hpos hcp mm hmm).symm
  have hpair := pairwise_mul_dvd mods mods.prod dvd_rfl hcp
  have hsum := crt_sum_mod x mods.prod mods hpos hpair hinv
  have hS := modEq_list_prod _ x mods hcp hsum
  exact congrArg some hS

/-! ### The `factorint` model and the Pohlig–Hellman theorem (C1) -/

theorem factorintM_facts {N : Nat} : ∀ pe ∈ factorintM N,
    pe.1.Prime ∧ 0 < pe.2 ∧ pe.2 = N.factorization pe.1 := by
  intro pe hpe
  rw [factorintM] at hpe
  obtain ⟨q, hq, hqe⟩ := List.mem_map.mp hpe
  have hq2 : q ∈ N.primeFactorsList := List.mem_dedup.mp hq
  have hpr := Nat.prime_of_mem_primeFactorsList hq2
  have hcnt : 0 < N.primeFactorsList.count q := List.count_pos_iff.mpr hq2
  have hfac : N.primeFactorsList.count q = N.factorization q := Nat.primeFactorsList_count_eq
  rw [← hqe]
  exact ⟨hpr, hcnt, hfac⟩

theorem dedup_toFinset (l : List Nat) : l.dedup.toFinset = l.toFinset := by
  ext a
  simp [List.mem_toFinset, List.mem_dedup]

theorem factorintM_map_pow {N : Nat} :
    ((factorintM N).map fun pe => pe.1 ^ pe.2)
      = N.primeFactorsList.dedup.map fun q => q ^ N.primeFactorsList.count q := by
  rw [factorintM, List.map_map]
  rfl

theorem factorintM_prod {N : Nat} (hN : N ≠ 0) :
    ((factorintM N).map fun pe => pe.1 ^ pe.2).prod = N := by
  rw [factorintM_map_pow, ← List.prod_toFinset _ (List.nodup_dedup _), dedup_toFinset]
  simp only [Nat.primeFactorsList_count_eq]
  have hself := Nat.factorization_prod_pow_eq_self hN
  have h2 : ∏ q in N.factorization.support, q ^ N.factorization q = N := hself
  rw [Nat.support_factorization] at h2
  exact h2

theorem pairwise_coprime_pow (f : Nat → Nat) : ∀ l : List Nat, (∀ q ∈ l, q.Prime) →
    l.Pairwise (· ≠ ·) → (l.map fun q => q ^ f q).Pairwise Nat.Coprime := by
  intro l
  induction l with
  | nil => intro _ _; exact List.Pairwise.nil
  | cons a t ih =>
    intro hprime hnd
    obtain ⟨hhead, htail⟩ := List.pairwise_cons.mp hnd
    rw [List.map_cons]
    refine List.pairwise_cons.mpr
      ⟨?_, ih (fun q hq => hprime q (List.mem_cons_of_mem _ hq)) htail⟩
    intro b hb
    obtain ⟨q, hq, hqe⟩ := List.mem_map.mp hb
    rw [← hqe]
    exact Nat.Coprime.pow _ _
      ((Nat.coprime_primes (hprime a (List.mem_cons_self a t))
        (hprime q (List.mem_cons_of_mem _ hq))).mpr (hhead q hq))

theorem mapM_option_eq_some {α β : Type} (f : α → Option β) (g : α → β) :
    ∀ l : List α, (∀ a ∈ l, f a = some (g a)) → l.mapM f = some (l.map g) := by
  intro l
  induction l with
  | nil => intro _; rfl
  | cons a t ih =>
    intro h
    rw [List.mapM_cons, h a (List.mem_cons_self a t)]
    show List.mapM f t >>= (fun xs => pure (g a :: xs)) = some (List.map g (a :: t))
    rw [ih fun b hb => h b (List.mem_cons_of_mem _ hb)]
    rfl

theorem proj_order {p N : Nat} (hp : p.Prime) {g : Nat}
    (hord : orderOf (g : ZMod p) = N) (hN : 0 < N) {d : Nat} (hd : d ∣ N)
    (hd0 : 0 < d) : orderOf ((g : ZMod p) ^ (N / d)) = d := by
  have hnd : N / d ∣ N := ⟨d, (Nat.div_mul_cancel hd).symm⟩
  have hnd0 : 0 < N / d := Nat.div_pos (Nat.le_of_dvd hN hd) hd0
  have h := orderOf_pow_zmod hp (N / d) hnd0.ne' hord hN
  rw [h, Nat.gcd_eq_right hnd, Nat.div_div_self hd hN.ne']

/-- C1: for every prime `p`, every order `N`, every `g` of order `N` in the
multiplicative group mod `p`, and every `x` in `[0, N)` with `h = g^x mod p`,
`ZpMulWithOrder(p, N).pohligHellman(g, h)` returns `x`. -/
theorem pohligHellman_finds_dlog (p N g x : Nat) (hp : p.Prime)
    (hord : orderOf (g : ZMod p) = N) (hx : x < N) :
    (zpMulWithOrder p N).pohligHellman g (powMod g x p) = some x := by
  have hN0 : N ≠ 0 := by omega
  have hmapm : (factorintM N).mapM (fun pe =>
      (zpMulWithOrder p (pe.1 ^ pe.2)).DLinGroupofPrimePowerOrder
        (powMod g (N / pe.1 ^ pe.2) p) (powMod (powMod g x p) (N / pe.1 ^ pe.2) p)
        pe.1 pe.2)
      = some ((factorintM N).map fun pe => x % pe.1 ^ pe.2) := by
    apply mapM_option_eq_some
    intro pe hpe
    obtain ⟨hqprime, hqpos, hfac⟩ := factorintM_facts pe hpe
    have hdvd : pe.1 ^ pe.2 ∣ N := by rw [hfac]; exact Nat.ordProj_dvd N pe.1
    have hqe0 : 0 < pe.1 ^ pe.2 := pow_pos hqprime.pos _
    have hproj2 : orderOf ((g : ZMod p) ^ (N / pe.1 ^ pe.2)) = pe.1 ^ pe.2 :=
      proj_order hp hord (by omega) hdvd hqe0
    have hproj : orderOf (((powMod g (N / pe.1 ^ pe.2) p : Nat)) : ZMod p)
        = pe.1 ^ pe.2 := by
      rw [powMod_cast]
      exact hproj2
    have hcast : ((powMod (powMod g x p) (N / pe.1 ^ pe.2) p : Nat) : ZMod p)
        = ((powMod g (N / pe.1 ^ pe.2) p : Nat) : ZMod p) ^ (x % pe.1 ^ pe.2) := by
      rw [powMod_cast, powMod_cast, powMod_cast, ← pow_mul, mul_comm, pow_mul]
      conv_lhs => rw [← pow_mod_orderOf]
      rw [hproj2]
    exact DLin_finds hp hqprime hqpos hproj (Nat.mod_lt _ hqe0) _
      (powMod_lt _ _ hp.pos) hcast
  have hpos : ∀ mm ∈ (factorintM N).map (fun pe => pe.1 ^ pe.2), 0 < mm := by
    intro mm hmm
    obtain ⟨pe, hpe, hpee⟩ := List.mem_map.mp hmm
    obtain ⟨hqprime, -, -⟩ := factorintM_facts pe hpe
    rw [← hpee]
    exact pow_pos hqprime.pos _
  have hcp : ((factorintM N).map fun pe => pe.1 ^ pe.2).Pairwise Nat.Coprime := by
    rw [factorintM_map_pow]
    refine pairwise_coprime_pow _ _ ?_ ?_
    · intro q hq
      exact Nat.prime_of_mem_primeFactorsList (List.mem_dedup.mp hq)
    · exact List.nodup_dedup _
  have hcrt := chineseRemainder_correct x ((factorintM N).map fun pe => pe.1 ^ pe.2)
    hpos hcp
  have hmm2 : (factorintM N).map (fun pe => x % pe.1 ^ pe.2)
      = ((factorintM N).map fun pe => pe.1 ^ pe.2).map fun mm => x % mm := by
    rw [List.map_map]
    rfl
  simp only [Group.pohligHellman, zpMulWithOrder_p, zpMulWithOrder_N]
  rw [hmapm]
  show (match chineseRemainder ((factorintM N).map fun pe => x % pe.1 ^ pe.2)
      ((factorintM N).map fun pe => pe.1 ^ pe.2) with
    | none => none
    | some x' => some (x' % N)) = some x
  rw [hmm2, hcrt]
  show some (x % ((factorintM N).map fun pe => pe.1 ^ pe.2).prod % N) = some x
  rw [factorintM_prod hN0, Nat.mod_mod_of_dvd _ dvd_rfl, Nat.mod_eq_of_lt hx]

/-- Witness for C1 at `p = 31`, `N = 30 = 2·3·5`, `g = 3` (a generator of
the full multiplicative group mod 31) and `x = 17`. -/
theorem pohligHellman_finds_dlog_witness :
    Nat.Prime 31 ∧ orderOf ((3 : Nat) : ZMod 31) = 30 ∧ 17 < 30 ∧
    (zpMulWithOrder 31 30).pohligHellman 3 (powMod 3 17 31) = some 17 :=
  ⟨by norm_num, (orderOf_eq_iff (by norm_num)).mpr ⟨by decide, by decide⟩, by norm_num,
    pohligHellman_finds_dlog 31 30 3 17 (by norm_num)
      ((orderOf_eq_iff (by norm_num)).mpr ⟨by decide, by decide⟩) (by norm_num)⟩

end Cryptool
